import Mathlib

/-!
Verification of the shapefile-to-GeoJSON converter core.

This development shallowly embeds the core of the converter:
* the polygon ring-assembly algorithm of `parseRecord` (`common.js`),
  including `ringClosed`, `ringArea`, `insideRing`, `ringIntersect` and
  the bbox helpers, over exact rationals (the JS code computes with
  IEEE doubles; the algorithms are field-generic and are modelled on `ℚ`);
* the chunked stream decoders `SHPTransform` and `DBFTransform`
  (`parser.js`) as byte-level state machines over lists of bytes;
* the DBF header/field/record decoders (`common.js`);
* the `stitch` combinator (`parser.js`).

Buffers are lists of natural numbers (byte values); the buffer-plus-offset
representation of the JS code is normalised to the list of not-yet-consumed
bytes, which is what the JS code itself reconstructs on every chunk arrival.
-/

namespace ShpGeo

/-- A coordinate pair, as produced by the (pluggable) projection. -/
abbrev Point : Type := ℚ × ℚ

/-- `pt l i` is `l[i]`, JS-array style (out of range gives a junk default;
all uses below are in range). -/
def pt (l : List Point) (i : ℕ) : Point := l.getD i (0, 0)

/-- Embeds `ringClosed` (common.js): rings of `length - 1 <= 2` are a fatal
error; otherwise compare the first and last coordinate pairs. -/
def ringClosedE (ring : List Point) : Except String Bool :=
  let l := ring.length - 1
  if l ≤ 2 then .error "SHPTransform: polygon ring too short."
  else .ok (decide ((pt ring 0).1 = (pt ring l).1 ∧ (pt ring 0).2 = (pt ring l).2))

/-- The JS previous index: `i > 0 ? i - 1 : l - 1`. -/
def prevIdx (len i : ℕ) : ℕ := if 0 < i then i - 1 else len - 1

/-- The JS next index: `i < l - 1 ? i + 1 : 0`. -/
def nextIdx (len i : ℕ) : ℕ := if i < len - 1 then i + 1 else 0

/-- The loop of `ringArea` (common.js): the Shoelace sum
`Σ ring[i][1] * (ring[p][0] - ring[n][0])`. -/
def shoelaceSum (ring : List Point) : ℚ :=
  ∑ i ∈ Finset.range ring.length,
    (pt ring i).2 * ((pt ring (prevIdx ring.length i)).1 - (pt ring (nextIdx ring.length i)).1)

/-- Embeds `ringArea` (common.js): fatal error when the Shoelace sum is `0`,
otherwise half the sum (positive iff the ring is counter-clockwise). -/
def ringAreaE (ring : List Point) : Except String ℚ :=
  if shoelaceSum ring = 0 then .error "SHPTransform: polygon ring area is 0."
  else .ok (shoelaceSum ring / 2)

/-- A bounding box `[w, s, e, n]`. -/
abbrev BBoxQ : Type := ℚ × ℚ × ℚ × ℚ

/-- Embeds `bbox_of` (common.js); the fold starts from
`±Number.MAX_SAFE_INTEGER`. -/
def bbox_of (line : List Point) : BBoxQ :=
  line.foldl
    (fun b p =>
      let w := if p.1 < b.1 then p.1 else b.1
      let e := if p.1 > b.2.2.1 then p.1 else b.2.2.1
      let n := if p.2 > b.2.2.2 then p.2 else b.2.2.2
      let s := if p.2 < b.2.1 then p.2 else b.2.1
      (w, s, e, n))
    ((9007199254740991 : ℚ), (9007199254740991 : ℚ),
      (-9007199254740991 : ℚ), (-9007199254740991 : ℚ))

/-- Embeds `bbox_intersection` (common.js). -/
def bbox_intersection (b1 b2 : BBoxQ) : Option BBoxQ :=
  let (w1, s1, e1, n1) := b1
  let (w2, s2, e2, n2) := b2
  if e1 < w2 ∨ e2 < w1 ∨ s1 > n2 ∨ s2 > n1 then none
  else some (max w1 w2, max s1 s2, min e1 e2, min n1 n2)

/-- Embeds `bbox_contains` (common.js). -/
def bbox_contains (b : BBoxQ) : Point → Bool :=
  fun p => decide (b.1 ≤ p.1 ∧ p.1 ≤ b.2.2.1 ∧ b.2.1 ≤ p.2 ∧ p.2 ≤ b.2.2.2)

/-- Embeds `insideRing` (common.js): the crossing-number count of the
horizontal ray from `p`. -/
def insideRing (p : Point) (ring : List Point) : ℕ :=
  (List.range ring.length).countP fun i =>
    let n := (i + 1) % ring.length
    let ri := pt ring i
    let rn := pt ring n
    decide (((ri.2 ≤ p.2 ∧ rn.2 > p.2) ∨ (ri.2 > p.2 ∧ rn.2 ≤ p.2)) ∧
      p.1 < ri.1 + (p.2 - ri.2) / (rn.2 - ri.2) * (rn.1 - ri.1))

/-- The inner loops of `ringIntersect` (common.js): the crossing count of the
first point of `pts` that lies in `bb` and has nonzero count w.r.t. `other`. -/
def firstCross (pts other : List Point) (bb : BBoxQ) : Option ℕ :=
  pts.findSome? fun p =>
    if bbox_contains bb p then
      let c := insideRing p other
      if c ≠ 0 then some c else none
    else none

/-- Embeds `ringIntersect` (common.js). -/
def ringIntersect (ring : List Point) (b1 : BBoxQ) (hole : List Point) (b2 : BBoxQ) : Bool :=
  match bbox_intersection b1 b2 with
  | none => false
  | some bb =>
    match firstCross hole ring bb with
    | some c => c % 2 = 1
    | none =>
      match firstCross ring hole bb with
      | some c => c % 2 = 1
      | none => false

/-- One entry of the `rings` array built by the polygon branch of
`parseRecord`: the ring, its signed area and its bounding box.  The mutable
`outer` back-reference of the JS record is represented externally (see
`matchHoles`). -/
structure RRec where
  ring : List Point
  area : ℚ
  box : BBoxQ
deriving DecidableEq

/-- The validation performed on each ring of a polygon record
(`parseRecord`, polygon branch): closed-ring check, then signed area
(`ringArea` already faults on zero sum; the following `area == 0` check of
the source is unreachable but kept). -/
def ringCheckE (ring : List Point) : Except String RRec :=
  match ringClosedE ring with
  | .error e => .error e
  | .ok false => .error "SHPTransform: polygon: ring not closed."
  | .ok true =>
    match ringAreaE ring with
    | .error e => .error e
    | .ok area =>
      if area = 0 then .error "SHPTransform: polygon: ring area is zero."
      else .ok ⟨ring, area, bbox_of ring⟩

/-- `List.mapM` specialised to `Except`, written as a plain recursion. -/
def mapME (f : α → Except ε β) : List α → Except ε (List β)
  | [] => .ok []
  | a :: as =>
    match f a with
    | .error e => .error e
    | .ok b =>
      match mapME f as with
      | .error e => .error e
      | .ok bs => .ok (b :: bs)

/-- The inner scan of the hole-matching loop: index of the first outer ring
(in current array order) whose absolute area exceeds the hole's area and
which intersects the hole. -/
def findOuterIdx (hole : RRec) (outers : List RRec) : Option ℕ :=
  outers.findIdx? fun outer =>
    decide (hole.area < |outer.area|) &&
      ringIntersect outer.ring outer.box hole.ring hole.box

/-- The hole-matching loop of `parseRecord`: each inner ring is matched to
the first qualifying outer (by index into the growing outer array), or is
promoted to an outer ring (reversed, area negated) when no outer matches.
Returns the final outer array and, per inner ring in order, `some (h, i)`
for a hole `h` matched to outer `i`, or `none` for a promoted ring. -/
def matchHoles : List RRec → List RRec → List RRec × List (Option (RRec × ℕ))
  | [], outers => (outers, [])
  | h :: hs, outers =>
    match findOuterIdx h outers with
    | some i =>
      let r := matchHoles hs outers
      (r.1, some (h, i) :: r.2)
    | none =>
      let promoted : RRec := ⟨h.ring.reverse, -h.area, h.box⟩
      let r := matchHoles hs (outers ++ [promoted])
      (r.1, none :: r.2)

/-- Junk element for in-range `getD` lookups of `RRec` lists. -/
instance : Inhabited RRec := ⟨⟨[], 0, (0, 0, 0, 0)⟩⟩

/-- The emission step of `parseRecord`: each outer ring (reversed) followed
by its matched holes (each reversed), in inner-array order. -/
def buildPolys (outers : List RRec) (asgn : List (Option (RRec × ℕ))) :
    List (List (List Point)) :=
  (List.range outers.length).map fun i =>
    (outers.getD i default).ring.reverse ::
      asgn.filterMap fun a =>
        match a with
        | some (h, j) => if j = i then some h.ring.reverse else none
        | none => none

/-- The geometry emitted for a polygon record. -/
inductive Geom where
  | polygon (rings : List (List Point))
  | multiPolygon (polys : List (List (List Point)))
deriving DecidableEq

/-- The list of polygons of a geometry (a `Polygon` is one polygon). -/
def geomPolys : Geom → List (List (List Point))
  | .polygon p => [p]
  | .multiPolygon ps => ps

/-- The sort-partition-match phase of the polygon branch of `parseRecord`:
sort ascending by signed area (JS `Array.prototype.sort` is stable, as is
insertion sort), split into outers (negative area) and inners (positive
area), then run the hole-matching loop. -/
def assembled (rings : List RRec) : List RRec × List (Option (RRec × ℕ)) :=
  matchHoles
    ((rings.insertionSort fun r1 r2 => r1.area ≤ r2.area).filter fun r => decide (0 < r.area))
    ((rings.insertionSort fun r1 r2 => r1.area ≤ r2.area).filter fun r => decide (r.area < 0))

/-- Embeds the polygon branch of `parseRecord` (common.js), starting from
the ring list `lines` sliced out of the flat point array: validate each
ring, sort and match holes (`assembled`), reject a record with no outer
ring, and emit a `Polygon` (one outer) or `MultiPolygon` (several). -/
def parseRecordPolygon (lines : List (List Point)) : Except String Geom :=
  match mapME ringCheckE lines with
  | .error e => .error e
  | .ok rings =>
    if (assembled rings).1.length = 0 then .error "SHPTransform: polygon: no outer rings."
    else if (assembled rings).1.length = 1 then
      .ok (.polygon ((buildPolys (assembled rings).1 (assembled rings).2).getD 0 []))
    else .ok (.multiPolygon (buildPolys (assembled rings).1 (assembled rings).2))

end ShpGeo

namespace ShpGeo

attribute [local semireducible] Rat.add Rat.mul Rat.sub Rat.inv

/-- Indexing a reversed list. -/
lemma pt_reverse (l : List Point) (i : ℕ) (h : i < l.length) :
    pt l.reverse i = pt l (l.length - 1 - i) := by
  unfold pt
  rw [List.getD_eq_getElem?_getD, List.getD_eq_getElem?_getD,
    List.getElem?_reverse (by simpa using h)]

/-- Reversing a ring negates the Shoelace sum computed by `ringArea`. -/
theorem shoelaceSum_reverse (l : List Point) : shoelaceSum l.reverse = -shoelaceSum l := by
  unfold shoelaceSum
  rw [List.length_reverse, ← Finset.sum_range_reflect, ← Finset.sum_neg_distrib]
  refine Finset.sum_congr rfl fun i hi => ?_
  rw [Finset.mem_range] at hi
  set n := l.length with hn
  have hin : n - 1 - i < n := by omega
  have h1 : pt l.reverse (n - 1 - i) = pt l i := by
    rw [pt_reverse l _ (by omega)]
    congr 1
    omega
  have h2 : pt l.reverse (prevIdx n (n - 1 - i)) = pt l (nextIdx n i) := by
    unfold prevIdx nextIdx
    by_cases hc : i < n - 1
    · rw [if_pos (by omega), if_pos hc, pt_reverse l _ (by omega)]
      congr 1 <;> omega
    · rw [if_neg (by omega), if_neg hc, pt_reverse l _ (by omega)]
      congr 1 <;> omega
  have h3 : pt l.reverse (nextIdx n (n - 1 - i)) = pt l (prevIdx n i) := by
    unfold prevIdx nextIdx
    by_cases hc : 0 < i
    · rw [if_pos (by omega), if_pos hc, pt_reverse l _ (by omega)]
      congr 1 <;> omega
    · rw [if_neg (by omega), if_neg hc, pt_reverse l _ (by omega)]
      congr 1 <;> omega
  rw [h1, h2, h3]
  ring

/-- A `mapME` success decodes every output element from some input element. -/
lemma mapME_ok_forall {f : α → Except ε β} :
    ∀ {l : List α} {l' : List β}, mapME f l = .ok l' → ∀ b ∈ l', ∃ a ∈ l, f a = .ok b
  | [], l', h => by
    unfold mapME at h
    cases h
    intro b hb
    cases hb
  | a :: as, l', h => by
    unfold mapME at h
    cases hfa : f a with
    | error e => rw [hfa] at h; cases h
    | ok b =>
      rw [hfa] at h
      cases hrest : mapME f as with
      | error e => rw [hrest] at h; cases h
      | ok bs =>
        rw [hrest] at h
        cases h
        intro b' hb'
        rcases List.mem_cons.mp hb' with hb' | hb'
        · exact ⟨a, List.mem_cons_self .., hb' ▸ hfa⟩
        · obtain ⟨a', ha', hfa'⟩ := mapME_ok_forall hrest b' hb'
          exact ⟨a', List.mem_cons_of_mem _ ha', hfa'⟩

/-- If some input element fails, `mapME` fails. -/
lemma mapME_error {f : α → Except ε β} :
    ∀ {l : List α} {a : α} {e' : ε}, a ∈ l → f a = .error e' →
      ∃ e, mapME f l = .error e
  | [], a, e', ha, _ => absurd ha (List.not_mem_nil a)
  | x :: xs, a, e', ha, hfa => by
    unfold mapME
    cases hfx : f x with
    | error e => exact ⟨e, rfl⟩
    | ok b =>
      rcases List.mem_cons.mp ha with rfl | ha'
      · rw [hfa] at hfx; cases hfx
      · obtain ⟨e, he⟩ := mapME_error (f := f) ha' hfa
        rw [he]
        exact ⟨e, rfl⟩

/-- What a successful per-ring validation guarantees. -/
lemma ringCheckE_ok {ring : List Point} {r : RRec} (h : ringCheckE ring = .ok r) :
    r.ring = ring ∧ shoelaceSum ring = 2 * r.area ∧ r.area ≠ 0 ∧
      ringClosedE ring = .ok true := by
  unfold ringCheckE ringAreaE at h
  split at h
  · cases h
  · cases h
  · rename_i heq
    by_cases hs : shoelaceSum ring = 0
    · simp only [if_pos hs] at h
      cases h
    · simp only [if_neg hs] at h
      have hz : ¬ shoelaceSum ring / 2 = 0 := by
        intro habs
        field_simp at habs
        exact hs habs
      simp only [if_neg hz] at h
      cases h
      exact ⟨rfl, by ring, hz, heq⟩

/-- A ring that is unclosed (or too short) or has zero Shoelace sum makes
the per-ring validation fail. -/
lemma ringCheckE_error {ring : List Point}
    (h : ¬ ringClosedE ring = .ok true ∨ shoelaceSum ring = 0) :
    ∃ e, ringCheckE ring = .error e := by
  cases hc : ringClosedE ring with
  | error e => exact ⟨e, by unfold ringCheckE; rw [hc]⟩
  | ok closed =>
    cases closed with
    | false => exact ⟨_, by unfold ringCheckE; rw [hc]⟩
    | true =>
      rcases h with h | h
      · exact absurd hc h
      · exact ⟨_, by unfold ringCheckE ringAreaE; rw [hc, if_pos h]⟩

/-- A `mapME` success decodes every input element successfully. -/
lemma mapME_ok_mem {f : α → Except ε β} :
    ∀ {l : List α} {l' : List β}, mapME f l = .ok l' → ∀ a ∈ l, ∃ b, f a = .ok b
  | [], _, _, a, ha => absurd ha (List.not_mem_nil a)
  | x :: xs, l', h, a, ha => by
    unfold mapME at h
    cases hfx : f x with
    | error e => rw [hfx] at h; cases h
    | ok b =>
      rw [hfx] at h
      cases hrest : mapME f xs with
      | error e => rw [hrest] at h; cases h
      | ok bs =>
        rcases List.mem_cons.mp ha with rfl | ha'
        · exact ⟨b, hfx⟩
        · exact mapME_ok_mem hrest a ha'

/-- In-range `getD` lookups are members. -/
lemma getD_mem {α : Type _} {l : List α} {i : ℕ} (d : α) (h : i < l.length) :
    l.getD i d ∈ l := by
  rw [List.getD_eq_getElem?_getD, List.getElem?_eq_getElem h]
  exact List.getElem_mem h

/-- The hole-matching loop preserves the area bookkeeping: every ring in the
final outer array is clockwise with `area` equal to half its Shoelace sum,
and every matched hole is counter-clockwise likewise (promotion reverses the
ring and negates the area, so the bookkeeping survives). -/
lemma matchHoles_invariant :
    ∀ (inners outers : List RRec),
      (∀ o ∈ outers, shoelaceSum o.ring = 2 * o.area ∧ o.area < 0) →
      (∀ h ∈ inners, shoelaceSum h.ring = 2 * h.area ∧ 0 < h.area) →
      (∀ o ∈ (matchHoles inners outers).1, shoelaceSum o.ring = 2 * o.area ∧ o.area < 0) ∧
      (∀ h i, some (h, i) ∈ (matchHoles inners outers).2 →
        shoelaceSum h.ring = 2 * h.area ∧ 0 < h.area)
  | [], outers, ho, _ => by
    unfold matchHoles
    refine ⟨ho, fun h i hmem => absurd hmem (List.not_mem_nil _)⟩
  | hd :: hs, outers, ho, hi => by
    unfold matchHoles
    cases hfind : findOuterIdx hd outers with
    | some i =>
      have ih := matchHoles_invariant hs outers ho fun h hh => hi h (List.mem_cons_of_mem _ hh)
      refine ⟨ih.1, fun h j hmem => ?_⟩
      rcases List.mem_cons.mp hmem with heq | hmem'
      · cases heq
        exact hi hd (List.mem_cons_self ..)
      · exact ih.2 h j hmem'
    | none =>
      have hhd := hi hd (List.mem_cons_self ..)
      have hprom : ∀ o ∈ outers ++ [(⟨hd.ring.reverse, -hd.area, hd.box⟩ : RRec)],
          shoelaceSum o.ring = 2 * o.area ∧ o.area < 0 := by
        intro o hmem
        rcases List.mem_append.mp hmem with hmem' | hmem'
        · exact ho o hmem'
        · rcases List.mem_singleton.mp hmem' with rfl
          constructor
          · show shoelaceSum hd.ring.reverse = 2 * (-hd.area)
            rw [shoelaceSum_reverse, hhd.1]
            ring
          · show -hd.area < 0
            linarith [hhd.2]
      have ih := matchHoles_invariant hs _ hprom fun h hh => hi h (List.mem_cons_of_mem _ hh)
      refine ⟨ih.1, fun h j hmem => ?_⟩
      rcases List.mem_cons.mp hmem with heq | hmem'
      · cases heq
      · exact ih.2 h j hmem'

/-- Membership in the emitted polygon list. -/
lemma buildPolys_mem {outers : List RRec} {asgn : List (Option (RRec × ℕ))}
    {poly : List (List Point)} (h : poly ∈ buildPolys outers asgn) :
    ∃ i, i < outers.length ∧ poly = (outers.getD i default).ring.reverse ::
      asgn.filterMap fun a =>
        match a with
        | some (hh, j) => if j = i then some hh.ring.reverse else none
        | none => none := by
  unfold buildPolys at h
  obtain ⟨i, hi, heq⟩ := List.mem_map.mp h
  exact ⟨i, List.mem_range.mp hi, heq.symm⟩

/-- The emitted polygons satisfy the winding-order invariant, given the
area bookkeeping of `matchHoles_invariant`. -/
lemma buildPolys_winding {outers : List RRec} {asgn : List (Option (RRec × ℕ))}
    (ho : ∀ o ∈ outers, shoelaceSum o.ring = 2 * o.area ∧ o.area < 0)
    (hi : ∀ h i, some (h, i) ∈ asgn → shoelaceSum h.ring = 2 * h.area ∧ 0 < h.area) :
    ∀ poly ∈ buildPolys outers asgn, ∃ ext holes, poly = ext :: holes ∧
      0 < shoelaceSum ext ∧ ∀ hr ∈ holes, shoelaceSum hr < 0 := by
  intro poly hp
  obtain ⟨i, hilen, rfl⟩ := buildPolys_mem hp
  refine ⟨_, _, rfl, ?_, ?_⟩
  · have hod := ho _ (getD_mem default hilen)
    rw [shoelaceSum_reverse, hod.1]
    linarith [hod.2]
  · intro hr hhr
    obtain ⟨a, ha, hfa⟩ := List.mem_filterMap.mp hhr
    cases a with
    | none => simp at hfa
    | some pr =>
      obtain ⟨hh, j⟩ := pr
      by_cases hj : j = i
      · subst hj
        simp only [if_pos rfl] at hfa
        cases hfa
        have hgood := hi hh j ha
        rw [shoelaceSum_reverse, hgood.1]
        linarith [hgood.2]
      · simp [hj] at hfa

deriving instance DecidableEq for Except

/-- C1: for every polygon record that decodes successfully, every emitted
polygon consists of an exterior ring with positive signed area
(counter-clockwise) followed by hole rings with negative signed area
(clockwise), regardless of the winding order of the source rings —
including inner rings promoted to outer status (which are reversed once at
promotion and once at emission). -/
theorem polygon_winding_invariant (lines : List (List Point)) (g : Geom)
    (h : parseRecordPolygon lines = .ok g) :
    ∀ poly ∈ geomPolys g, ∃ ext holes, poly = ext :: holes ∧
      0 < shoelaceSum ext ∧ ∀ hr ∈ holes, shoelaceSum hr < 0 := by
  unfold parseRecordPolygon at h
  split at h
  · cases h
  · rename_i rings hm
    have hringsOK : ∀ r ∈ rings, shoelaceSum r.ring = 2 * r.area ∧ r.area ≠ 0 := by
      intro r hr
      obtain ⟨a, _, hfa⟩ := mapME_ok_forall hm r hr
      obtain ⟨h1, h2, h3, _⟩ := ringCheckE_ok hfa
      exact ⟨by rw [h1]; exact h2, h3⟩
    have hsorted : ∀ r ∈ rings.insertionSort (fun r1 r2 => r1.area ≤ r2.area), r ∈ rings :=
      fun r hr => (List.perm_insertionSort _ rings).mem_iff.mp hr
    have ho : ∀ o ∈ (assembled rings).1, shoelaceSum o.ring = 2 * o.area ∧ o.area < 0 := by
      refine (matchHoles_invariant _ _ ?_ ?_).1
      · intro o hmem
        have hf := List.mem_filter.mp hmem
        have hOK := hringsOK o (hsorted o hf.1)
        exact ⟨hOK.1, of_decide_eq_true hf.2⟩
      · intro hh hmem
        have hf := List.mem_filter.mp hmem
        have hOK := hringsOK hh (hsorted hh hf.1)
        exact ⟨hOK.1, of_decide_eq_true hf.2⟩
    have hi : ∀ hh i, some (hh, i) ∈ (assembled rings).2 →
        shoelaceSum hh.ring = 2 * hh.area ∧ 0 < hh.area := by
      refine (matchHoles_invariant _ _ ?_ ?_).2
      · intro o hmem
        have hf := List.mem_filter.mp hmem
        have hOK := hringsOK o (hsorted o hf.1)
        exact ⟨hOK.1, of_decide_eq_true hf.2⟩
      · intro hh hmem
        have hf := List.mem_filter.mp hmem
        have hOK := hringsOK hh (hsorted hh hf.1)
        exact ⟨hOK.1, of_decide_eq_true hf.2⟩
    by_cases h0 : (assembled rings).1.length = 0
    · rw [if_pos h0] at h; cases h
    · rw [if_neg h0] at h
      by_cases h1 : (assembled rings).1.length = 1
      · rw [if_pos h1] at h
        cases h
        intro poly hpoly
        rcases List.mem_singleton.mp hpoly with rfl
        refine buildPolys_winding ho hi _ ?_
        have hlen : (buildPolys (assembled rings).1 (assembled rings).2).length =
            (assembled rings).1.length := by
          unfold buildPolys
          simp
        exact getD_mem [] (by omega)
      · rw [if_neg h1] at h
        cases h
        intro poly hpoly
        exact buildPolys_winding ho hi _ hpoly

/-- Witness for C1: a single clockwise square ring decodes to a `Polygon`
whose exterior ring has positive signed area and no holes. -/
theorem polygon_winding_invariant_witness :
    ∃ ext holes,
      ([[((0 : ℚ), (0 : ℚ)), (2, 0), (2, 2), (0, 2), (0, 0)]] : List (List Point)) =
        ext :: holes ∧
      0 < shoelaceSum ext ∧ ∀ hr ∈ holes, shoelaceSum hr < 0 :=
  polygon_winding_invariant
    [[(0, 0), (0, 2), (2, 2), (2, 0), (0, 0)]]
    (.polygon [[(0, 0), (2, 0), (2, 2), (0, 2), (0, 0)]])
    (by decide)
    [[((0 : ℚ), (0 : ℚ)), (2, 0), (2, 2), (0, 2), (0, 0)]]
    (by decide)

/-- C8: a polygon record is emitted only if every one of its rings passes
the closed-ring check and has nonzero Shoelace sum; conversely an unclosed
ring or a zero-area ring anywhere in the record makes decoding fail. -/
theorem polygon_ring_validation (lines : List (List Point)) :
    (∀ g, parseRecordPolygon lines = .ok g →
      ∀ ring ∈ lines, ringClosedE ring = .ok true ∧ shoelaceSum ring ≠ 0) ∧
    ((∃ ring ∈ lines, ¬ ringClosedE ring = .ok true ∨ shoelaceSum ring = 0) →
      ∃ e, parseRecordPolygon lines = .error e) := by
  constructor
  · intro g hg ring hring
    unfold parseRecordPolygon at hg
    split at hg
    · cases hg
    · rename_i rings hm
      obtain ⟨r, hr⟩ := mapME_ok_mem hm ring hring
      obtain ⟨_, h2, h3, h4⟩ := ringCheckE_ok hr
      refine ⟨h4, ?_⟩
      rw [h2]
      intro habs
      exact h3 (by linarith [habs])
  · rintro ⟨ring, hring, hbad⟩
    obtain ⟨e', he'⟩ := ringCheckE_error hbad
    obtain ⟨e, he⟩ := mapME_error hring he'
    exact ⟨e, by unfold parseRecordPolygon; rw [he]⟩

/-- Witness for C8: a record containing an unclosed (but long enough) ring
fails to decode. -/
theorem polygon_ring_validation_witness :
    ∃ e, parseRecordPolygon [[((0 : ℚ), (0 : ℚ)), (1, 0), (1, 1), (0, 1)]] = .error e :=
  (polygon_ring_validation _).2
    ⟨[((0 : ℚ), (0 : ℚ)), (1, 0), (1, 1), (0, 1)], by decide, Or.inl (by decide)⟩

/-- C10: a ring of at most 3 coordinate pairs (`length - 1 <= 2`) makes the
closed-ring check itself throw the dedicated `polygon ring too short` error,
before any closure comparison or area computation, and a polygon record
containing such a ring always fails to decode. -/
theorem short_ring_fatal (ring : List Point) (h : ring.length ≤ 3) :
    ringClosedE ring = .error "SHPTransform: polygon ring too short." ∧
    ∀ lines, ring ∈ lines → ∃ e, parseRecordPolygon lines = .error e := by
  have hc : ringClosedE ring = .error "SHPTransform: polygon ring too short." := by
    unfold ringClosedE
    rw [if_pos (by omega)]
  refine ⟨hc, fun lines hmem => ?_⟩
  obtain ⟨e', he'⟩ := @ringCheckE_error ring (Or.inl (by rw [hc]; intro habs; cases habs))
  obtain ⟨e, he⟩ := mapME_error hmem he'
  exact ⟨e, by unfold parseRecordPolygon; rw [he]⟩

/-- Witness for C10: a 3-point "ring" is rejected as too short. -/
theorem short_ring_fatal_witness :
    ringClosedE [((0 : ℚ), (0 : ℚ)), (1, 1), (0, 0)] =
      .error "SHPTransform: polygon ring too short." ∧
    ∃ e, parseRecordPolygon [[((0 : ℚ), (0 : ℚ)), (1, 1), (0, 0)]] = .error e := by
  have h := short_ring_fatal [((0 : ℚ), (0 : ℚ)), (1, 1), (0, 0)] (by decide)
  exact ⟨h.1, h.2 _ (by simp)⟩

/-- C3 (counterexample to the tightest-outer claim, executing the code):
three rings — a 10x10 clockwise outer `A` (signed area −100), a 4x4
clockwise outer `B` (signed area −16) nested inside `A`, and a 1x1
counter-clockwise hole `H` (signed area 1) inside both.  The ascending
signed-area sort places `A` (−100) before `B` (−16), so the scan tests the
*largest* outer first and assigns `H` to `A`, not to the tightest enclosing
outer `B`: the emitted `MultiPolygon` nests the hole under `A` and leaves
`B` without holes.  The last conjunct shows `B` also encloses `H` (with
smaller absolute area), so the tightest-outer reading is violated. -/
theorem hole_assigned_to_largest_outer :
    parseRecordPolygon
      [[(0, 0), (0, 10), (10, 10), (10, 0), (0, 0)],
       [(2, 2), (2, 6), (6, 6), (6, 2), (2, 2)],
       [(3, 3), (4, 3), (4, 4), (3, 4), (3, 3)]] =
      .ok (.multiPolygon
        [[[(0, 0), (10, 0), (10, 10), (0, 10), (0, 0)],
          [(3, 3), (3, 4), (4, 4), (4, 3), (3, 3)]],
         [[(2, 2), (6, 2), (6, 6), (2, 6), (2, 2)]]]) ∧
    shoelaceSum [((0 : ℚ), (0 : ℚ)), (0, 10), (10, 10), (10, 0), (0, 0)] = -200 ∧
    shoelaceSum [((2 : ℚ), (2 : ℚ)), (2, 6), (6, 6), (6, 2), (2, 2)] = -32 ∧
    shoelaceSum [((3 : ℚ), (3 : ℚ)), (4, 3), (4, 4), (3, 4), (3, 3)] = 2 ∧
    ringIntersect [((2 : ℚ), (2 : ℚ)), (2, 6), (6, 6), (6, 2), (2, 2)] (2, 2, 6, 6)
      [(3, 3), (4, 3), (4, 4), (3, 4), (3, 3)] (3, 3, 4, 4) = true := by
  decide

/-- Embeds `stitch` (parser.js) over finite streams: on every step both
streams advance by one record; both ending together ends iteration cleanly,
one ending first raises the pairing-mismatch `TypeError` (geometry stream
short: `not enough feature records`; attribute stream short: `not enough
dbf records`).  The result collects the records yielded before the end or
the error, plus the terminal error if any.  Merging is abstracted by
`merge` (the JS code sets `feature.properties = prop.value`). -/
def stitchRun (merge : α → β → γ) : List α → List β → List γ × Option String
  | [], [] => ([], none)
  | [], _ :: _ => ([], some "stitch: not enough feature records.")
  | _ :: _, [] => ([], some "stitch: not enough dbf records.")
  | f :: fs, p :: ps =>
    let r := stitchRun merge fs ps
    (merge f p :: r.1, r.2)

/-- C4: `stitch` pairs the two streams positionally, yields exactly
`min m n` merged records, ends cleanly iff both streams have the same
length, and otherwise fails with a pairing-mismatch error after those
`min m n` records. -/
theorem stitch_pairing (merge : α → β → γ) (fs : List α) (ps : List β) :
    (stitchRun merge fs ps).1 = List.zipWith merge fs ps ∧
    (stitchRun merge fs ps).1.length = min fs.length ps.length ∧
    ((stitchRun merge fs ps).2 = none ↔ fs.length = ps.length) := by
  induction fs generalizing ps with
  | nil =>
    cases ps with
    | nil => exact ⟨rfl, rfl, by simp [stitchRun]⟩
    | cons p ps => exact ⟨rfl, rfl, by simp [stitchRun]⟩
  | cons f fs ih =>
    cases ps with
    | nil => exact ⟨rfl, rfl, by simp [stitchRun]⟩
    | cons p ps =>
      have h := ih ps
      refine ⟨?_, ?_, ?_⟩
      · show merge f p :: (stitchRun merge fs ps).1 = _
        rw [h.1]
        rfl
      · show (merge f p :: (stitchRun merge fs ps).1).length = _
        simp only [List.length_cons, h.2.1, List.length_cons]
        omega
      · show (stitchRun merge fs ps).2 = none ↔ _
        rw [h.2.2]
        constructor
        · intro he
          simp [he]
        · intro he
          simp only [List.length_cons] at he
          omega

/-- JS `String.prototype.trim` whitespace (the characters relevant here:
ASCII whitespace, NBSP, BOM). -/
def isJsWs (c : Char) : Bool :=
  decide (c.toNat = 9 ∨ c.toNat = 10 ∨ c.toNat = 11 ∨ c.toNat = 12 ∨ c.toNat = 13 ∨
    c.toNat = 32 ∨ c.toNat = 160 ∨ c.toNat = 65279)

/-- JS `trim` on a character list: drop whitespace from both ends. -/
def jsTrimL (l : List Char) : List Char :=
  ((l.dropWhile isJsWs).reverse.dropWhile isJsWs).reverse

/-- JS `trim` on a string. -/
def jsTrim (s : String) : String := ⟨jsTrimL s.data⟩

/-- `TextDecoder('latin1')` byte-to-text decoding, modelled as the identity
on code units (faithful on the 7-bit range all claims use). -/
def decodeStr (bs : List ℕ) : String := ⟨bs.map fun b => Char.ofNat b⟩

/-- Value of a decimal digit string, most significant first. -/
def natOfDigits (ds : List ℕ) : ℕ := ds.foldl (fun a d => a * 10 + d) 0

/-- Split a leading run of decimal digits off a character list. -/
def takeDigits : List Char → List ℕ × List Char
  | [] => ([], [])
  | c :: rest =>
    if '0' ≤ c ∧ c ≤ '9' then
      let r := takeDigits rest
      ((c.toNat - 48) :: r.1, r.2)
    else ([], c :: rest)

/-- Exponent part of a JS numeric literal (after the `e`): optional sign and
a nonempty digit run consuming the rest of the input. -/
def parseExp (l : List Char) : Option ℤ :=
  let sl : ℤ × List Char :=
    match l with
    | '+' :: r => (1, r)
    | '-' :: r => (-1, r)
    | _ => (1, l)
  let dr := takeDigits sl.2
  if dr.1 = [] ∨ dr.2 ≠ [] then none else some (sl.1 * natOfDigits dr.1)

/-- Mantissa of a JS numeric literal: `digits [. digits]` or `. digits`,
with at least one digit in total. -/
def parseMantissa (l : List Char) : Option (ℚ × List Char) :=
  let ir := takeDigits l
  match hr : ir.2 with
  | '.' :: r2 =>
    let fr := takeDigits r2
    if ir.1 = [] ∧ fr.1 = [] then none
    else some ((natOfDigits ir.1 : ℚ) + (natOfDigits fr.1 : ℚ) / (10 : ℚ) ^ fr.1.length, fr.2)
  | _ => if ir.1 = [] then none else some ((natOfDigits ir.1 : ℚ), ir.2)

/-- Model of JS `Number(str)` on the inputs the DBF decoder feeds it:
the empty string converts to `0`; otherwise an optional sign followed by a
decimal mantissa and optional exponent, consuming the whole string,
converts to the denoted rational; everything else (including the non-finite
`Infinity` spellings and radix prefixes, irrelevant to DBF data) is
collapsed to `none`, the NaN marker. -/
def jsNumber (s : String) : Option ℚ :=
  match jsTrimL s.data with
  | [] => some 0
  | c :: rest =>
    let sl : ℚ × List Char :=
      match c :: rest with
      | '+' :: r => (1, r)
      | '-' :: r => (-1, r)
      | l => (1, l)
    match parseMantissa sl.2 with
    | none => none
    | some (m, tail) =>
      match tail with
      | [] => some (sl.1 * m)
      | 'e' :: r => (parseExp r).map fun e => sl.1 * m * (10 : ℚ) ^ e
      | 'E' :: r => (parseExp r).map fun e => sl.1 * m * (10 : ℚ) ^ e
      | _ => none

/-- A decoded DBF cell value.  JS `null` is `vNull`; the IEEE `NaN` that
`Number` returns for unparsable nonempty strings is `vNaN` (a *number* in
JS, distinct from `null`; `JSON.stringify` later renders it as `null`). -/
inductive JSValue where
  | vNull
  | vNum (q : ℚ)
  | vNaN
  | vStr (s : String)
  | vBool (b : Bool)
deriving DecidableEq

/-- A DBF field descriptor as decoded by `dbfField` (common.js). -/
structure DField where
  name : String
  type : Char
  size : ℕ
deriving DecidableEq

/-- The `'C'` branch of `dbfRecord`: decode, trim, then strip trailing NUL
characters. -/
def dbfValueC (col : List ℕ) : JSValue :=
  let str := jsTrimL (decodeStr col).data
  .vStr ⟨(str.reverse.dropWhile fun c => c.toNat = 0).reverse⟩

/-- The `'D'` branch of `dbfRecord`: decode and trim. -/
def dbfValueD (col : List ℕ) : JSValue := .vStr (jsTrim (decodeStr col))

/-- The `'N'`/`'F'` branch of `dbfRecord`: trimmed empty content gives JS
`null`; otherwise `Number(str)` — `NaN` when the content is non-numeric. -/
def dbfValueN (col : List ℕ) : JSValue :=
  if jsTrim (decodeStr col) = "" then .vNull
  else
    match jsNumber (jsTrim (decodeStr col)) with
    | some q => .vNum q
    | none => .vNaN

/-- The `'L'` branch of `dbfRecord`: lower-cased trimmed content `y`/`t`
gives `true`, `n`/`f` gives `false`, anything else `null`. -/
def dbfValueL (col : List ℕ) : JSValue :=
  let str : String := ⟨jsTrimL ((decodeStr col).data.map Char.toLower)⟩
  if str = "y" ∨ str = "t" then .vBool true
  else if str = "n" ∨ str = "f" then .vBool false
  else .vNull

/-- The per-field type dispatch of `dbfRecord` (common.js); unsupported
type tags are fatal. -/
def dbfFieldValue (t : Char) (col : List ℕ) : Except String JSValue :=
  match t with
  | 'C' => .ok (dbfValueC col)
  | 'D' => .ok (dbfValueD col)
  | 'N' => .ok (dbfValueN col)
  | 'F' => .ok (dbfValueN col)
  | 'L' => .ok (dbfValueL col)
  | t => .error ("DBF field type " ++ toString t ++ " not implemented.")

/-- The field loop of `dbfRecord` (common.js) over the fixed-width row
window `w` (deletion-flag byte included, hence the `pos + 1` column start).
The JS `DataView` creation bounds-checks each column slice; the check is
modelled against the row window, which is where valid DBF layouts keep all
columns. -/
def dbfRecordE (w : List ℕ) : List DField → ℕ → Except String (List (String × JSValue))
  | [], _ => .ok []
  | f :: fs, pos =>
    if pos + 1 + f.size ≤ w.length then
      match dbfFieldValue f.type ((w.drop (pos + 1)).take f.size) with
      | .error e => .error e
      | .ok v =>
        match dbfRecordE w fs (pos + f.size) with
        | .error e => .error e
        | .ok row => .ok ((f.name, v) :: row)
    else .error "RangeError"

/-- `dbfRecord` (common.js): decode one row window into its field map. -/
def dbfRecordRun (fields : List DField) (w : List ℕ) :
    Except String (List (String × JSValue)) :=
  dbfRecordE w fields 0

/-- Dropping leading whitespace from an all-spaces list empties it. -/
lemma dropWhile_isJsWs_replicate (n : ℕ) :
    (List.replicate n ' ').dropWhile isJsWs = [] := by
  induction n with
  | zero => rfl
  | succ n ih =>
    rw [List.replicate_succ, List.dropWhile_cons]
    simp only [(by decide : isJsWs ' ' = true), if_pos rfl]
    exact ih

/-- An all-spaces column trims to the empty string. -/
lemma jsTrim_spaces (n : ℕ) : jsTrim (decodeStr (List.replicate n 32)) = "" := by
  unfold decodeStr jsTrim jsTrimL
  rw [List.map_replicate]
  have hch : Char.ofNat 32 = ' ' := by decide
  rw [hch, dropWhile_isJsWs_replicate]
  rfl

/-- An all-spaces numeric column decodes to JS `null`. -/
lemma dbfValueN_spaces (n : ℕ) : dbfValueN (List.replicate n 32) = .vNull := by
  unfold dbfValueN
  rw [if_pos (jsTrim_spaces n)]

/-- C6 (amended): a numeric (`N`/`F`) DBF cell decodes to JS `null` exactly
when its bytes trim to the empty string (in particular an all-spaces cell,
also through the full record decoder); nonempty non-numeric content decodes
to `NaN` — a non-null marker, not zero and not any rational; and a rational
is produced only when JS `Number` parses the trimmed content to exactly
that rational. -/
theorem numeric_field_decoding (col : List ℕ) :
    (dbfValueN col = .vNull ↔ jsTrim (decodeStr col) = "") ∧
    (jsTrim (decodeStr col) ≠ "" → jsNumber (jsTrim (decodeStr col)) = none →
      dbfValueN col = .vNaN) ∧
    (∀ q, dbfValueN col = .vNum q →
      jsTrim (decodeStr col) ≠ "" ∧ jsNumber (jsTrim (decodeStr col)) = some q) ∧
    (∀ name size, dbfRecordRun [⟨name, 'N', size⟩] (32 :: List.replicate size 32) =
      .ok [(name, .vNull)]) := by
  refine ⟨?_, ?_, ?_, ?_⟩
  · unfold dbfValueN
    by_cases hs : jsTrim (decodeStr col) = ""
    · simp [hs]
    · rw [if_neg hs]
      cases hn : jsNumber (jsTrim (decodeStr col)) <;> simp [hs]
  · intro hs hn
    unfold dbfValueN
    rw [if_neg hs, hn]
  · intro q hq
    unfold dbfValueN at hq
    by_cases hs : jsTrim (decodeStr col) = ""
    · rw [if_pos hs] at hq; cases hq
    · rw [if_neg hs] at hq
      refine ⟨hs, ?_⟩
      cases hn : jsNumber (jsTrim (decodeStr col)) with
      | none => rw [hn] at hq; cases hq
      | some q' => rw [hn] at hq; cases hq; rfl
  · intro name size
    unfold dbfRecordRun dbfRecordE
    rw [if_pos (by simp; omega)]
    have hcol : (((32 : ℕ) :: List.replicate size 32).drop 1).take size =
        List.replicate size 32 := by
      simp
    rw [hcol]
    have hfv : dbfFieldValue 'N' (List.replicate size 32) = .ok (dbfValueN (List.replicate size 32)) := rfl
    rw [hfv, dbfValueN_spaces]
    rfl

/-- Witness for C6 (amended): an all-spaces cell gives `null` (also through
the record decoder) and a non-numeric cell gives `NaN`. -/
theorem numeric_field_decoding_witness :
    dbfValueN [32, 32] = .vNull ∧ dbfValueN [120] = .vNaN ∧
    dbfRecordRun [⟨"A", 'N', 2⟩] [32, 32, 32] = .ok [("A", .vNull)] :=
  ⟨(numeric_field_decoding [32, 32]).1.mpr (by decide),
   (numeric_field_decoding [120]).2.1 (by decide) (by decide),
   (numeric_field_decoding []).2.2.2 "A" 2⟩

/-- C6 (counterexample to the claim as stated): a numeric field whose bytes
are `"abc"` trims to a nonempty non-numeric string, and the record decoder
stores the `NaN` marker for it — not the absent-value marker `null`. -/
theorem numeric_field_nonempty_gives_nan :
    dbfRecordRun [⟨"A", 'N', 3⟩] [32, 97, 98, 99] = .ok [("A", .vNaN)] ∧
    jsTrim (decodeStr [97, 98, 99]) = "abc" ∧
    jsNumber "abc" = none ∧
    JSValue.vNaN ≠ JSValue.vNull := by decide

/-- Taking at most the first component of an append stays in it. -/
lemma take_append_left {γ : Type _} (l m : List γ) {n : ℕ} (h : n ≤ l.length) :
    (l ++ m).take n = l.take n := by
  rw [List.take_append_eq_append_take, Nat.sub_eq_zero_of_le h, List.take_zero,
    List.append_nil]

/-- Dropping at most the first component of an append keeps the second. -/
lemma drop_append_left {γ : Type _} (l m : List γ) {n : ℕ} (h : n ≤ l.length) :
    (l ++ m).drop n = l.drop n ++ m := by
  rw [List.drop_append_eq_append_drop, Nat.sub_eq_zero_of_le h, List.drop_zero]

/-- `DataView`-style bounds-checked slice of `n` bytes at offset `i`:
`RangeError` (`none`) when the buffer is too short. -/
def readBytes (p : List ℕ) (i n : ℕ) : Option (List ℕ) :=
  if i + n ≤ p.length then some ((p.drop i).take n) else none

/-- A successful slice pins the buffer length and the slice. -/
lemma readBytes_some {p : List ℕ} {i n : ℕ} {w : List ℕ} (h : readBytes p i n = some w) :
    i + n ≤ p.length ∧ w = (p.drop i).take n ∧ w.length = n := by
  unfold readBytes at h
  split at h
  · cases h
    next hle =>
      refine ⟨hle, rfl, ?_⟩
      rw [List.length_take, List.length_drop]
      omega
  · cases h

/-- Slices entirely inside the first chunk ignore appended bytes. -/
lemma readBytes_append (p d : List ℕ) {i n : ℕ} (h : i + n ≤ p.length) :
    readBytes (p ++ d) i n = readBytes p i n := by
  unfold readBytes
  rw [if_pos h, if_pos (by rw [List.length_append]; omega)]
  rw [drop_append_left _ _ (by omega), take_append_left _ _ (by rw [List.length_drop]; omega)]

/-- A generic incremental chunk decoder: a control state `c` plus the
pending (not yet consumed) byte list; `step` fires only when at least
`needed c` bytes are pending, must consume only pending bytes it can see
(`step_append`) and must make progress (`step_dec`); `inv` is the machine's
internal consistency invariant.  This is the common shape of `SHPTransform`
and `DBFTransform` (parser.js): their `transform(chunk)` appends the chunk
to the pending bytes and then fires steps while enough bytes are
available. -/
structure StepMachine (C E : Type) where
  needed : C → ℕ
  weight : C → ℕ
  inv : C → Prop
  step : C → List ℕ → Except E (C × List ℕ)
  fuelErr : E
  step_dec : ∀ c p c' p', inv c → needed c ≤ p.length → step c p = .ok (c', p') →
    2 * p'.length + weight c' < 2 * p.length + weight c
  step_inv : ∀ c p c' p', inv c → needed c ≤ p.length → step c p = .ok (c', p') → inv c'
  step_append : ∀ c p d, inv c → needed c ≤ p.length →
    step c (p ++ d) = (step c p).map fun cp => (cp.1, cp.2 ++ d)

namespace StepMachine

variable {C E : Type} (M : StepMachine C E)

/-- The `while (true)` loop body of the transforms, with explicit fuel
(the fuel is always sufficient below, see `loopF_irrel`). -/
def loopF : ℕ → C → List ℕ → Except E (C × List ℕ)
  | 0, _, _ => .error M.fuelErr
  | fuel + 1, c, p =>
    if p.length < M.needed c then .ok (c, p)
    else
      match M.step c p with
      | .error e => .error e
      | .ok (c', p') => loopF fuel c' p'

/-- An upper bound on the number of loop iterations from `(c, p)`. -/
def sizeOf' (c : C) (p : List ℕ) : ℕ := 2 * p.length + M.weight c + 1

/-- One unfolding of the fuelled loop. -/
lemma loopF_succ (f : ℕ) (c : C) (p : List ℕ) :
    M.loopF (f + 1) c p =
      if p.length < M.needed c then .ok (c, p)
      else
        match M.step c p with
        | .error e => .error e
        | .ok (c', p') => M.loopF f c' p' := rfl

/-- The loop result does not depend on the fuel, as long as it is at least
`sizeOf'`. -/
lemma loopF_irrel : ∀ (f g : ℕ) (c : C) (p : List ℕ), M.inv c →
    M.sizeOf' c p ≤ f → M.sizeOf' c p ≤ g → M.loopF f c p = M.loopF g c p := by
  intro f
  induction f with
  | zero => intro g c p _ hf _; exact absurd hf (by unfold sizeOf'; omega)
  | succ f ih =>
    intro g c p hinv hf hg
    cases g with
    | zero => exact absurd hg (by unfold sizeOf'; omega)
    | succ g =>
      rw [M.loopF_succ, M.loopF_succ]
      by_cases hguard : p.length < M.needed c
      · rw [if_pos hguard, if_pos hguard]
      · rw [if_neg hguard, if_neg hguard]
        cases hstep : M.step c p with
        | error e => rfl
        | ok cp =>
          obtain ⟨c', p'⟩ := cp
          have hdec := M.step_dec c p c' p' hinv (by omega) hstep
          have hinv' := M.step_inv c p c' p' hinv (by omega) hstep
          exact ih g c' p' hinv' (by unfold sizeOf' at hf ⊢; omega)
            (by unfold sizeOf' at hg ⊢; omega)

/-- The canonical (fuel-independent) run of the loop. -/
def runLoop (c : C) (p : List ℕ) : Except E (C × List ℕ) :=
  M.loopF (M.sizeOf' c p) c p

/-- Too few pending bytes: the loop waits (returns the state unchanged). -/
lemma runLoop_quiescent {c : C} {p : List ℕ} (h : p.length < M.needed c) :
    M.runLoop c p = .ok (c, p) := by
  unfold runLoop sizeOf'
  rw [M.loopF_succ, if_pos h]

/-- Enough pending bytes: the loop fires one step and continues. -/
lemma runLoop_step {c : C} {p : List ℕ} (hinv : M.inv c) (h : M.needed c ≤ p.length) :
    M.runLoop c p =
      match M.step c p with
      | .error e => .error e
      | .ok (c', p') => M.runLoop c' p' := by
  unfold runLoop
  rw [show M.sizeOf' c p = (2 * p.length + M.weight c) + 1 from rfl, M.loopF_succ,
    if_neg (by omega)]
  cases hstep : M.step c p with
  | error e => rfl
  | ok cp =>
    obtain ⟨c', p'⟩ := cp
    have hdec := M.step_dec c p c' p' hinv h hstep
    have hinv' := M.step_inv c p c' p' hinv h hstep
    exact M.loopF_irrel _ _ c' p' hinv' (by unfold sizeOf'; omega) (le_refl _)

/-- The loop ends quiescent and with the invariant intact. -/
lemma runLoop_post : ∀ (f : ℕ) (c : C) (p : List ℕ) (c' : C) (p' : List ℕ), M.inv c →
    M.loopF f c p = .ok (c', p') → M.inv c' ∧ p'.length < M.needed c' := by
  intro f
  induction f with
  | zero => intro c p c' p' _ h; cases h
  | succ f ih =>
    intro c p c' p' hinv h
    rw [M.loopF_succ] at h
    by_cases hguard : p.length < M.needed c
    · rw [if_pos hguard] at h
      cases h
      exact ⟨hinv, hguard⟩
    · rw [if_neg hguard] at h
      cases hstep : M.step c p with
      | error e => rw [hstep] at h; cases h
      | ok cp =>
        rw [hstep] at h
        obtain ⟨c1, p1⟩ := cp
        exact ih c1 p1 c' p' (M.step_inv c p c1 p1 hinv (by omega) hstep) h

/-- Appending extra bytes commutes with running the loop: first draining
`p`, then appending `d` and draining again, equals draining `p ++ d`.
This is the crux of chunk-boundary insensitivity. -/
lemma runLoop_append : ∀ (n : ℕ) (c : C) (p d : List ℕ), M.inv c → M.sizeOf' c p ≤ n →
    (match M.runLoop c p with
     | .error e => .error e
     | .ok (c', p') => M.runLoop c' (p' ++ d)) = M.runLoop c (p ++ d) := by
  intro n
  induction n with
  | zero => intro c p d _ hn; exact absurd hn (by unfold sizeOf'; omega)
  | succ n ih =>
    intro c p d hinv hn
    by_cases hguard : p.length < M.needed c
    · rw [M.runLoop_quiescent hguard]
    · have hle : M.needed c ≤ p.length := by omega
      have hle' : M.needed c ≤ (p ++ d).length := by
        rw [List.length_append]; omega
      rw [M.runLoop_step hinv hle, M.runLoop_step hinv hle',
        M.step_append c p d hinv hle]
      cases hstep : M.step c p with
      | error e => rfl
      | ok cp =>
        obtain ⟨c1, p1⟩ := cp
        have hdec := M.step_dec c p c1 p1 hinv hle hstep
        have hinv1 := M.step_inv c p c1 p1 hinv hle hstep
        show (match M.runLoop c1 p1 with
          | .error e => .error e
          | .ok (c', p') => M.runLoop c' (p' ++ d)) = M.runLoop c1 (p1 ++ d)
        exact ih c1 p1 d hinv1 (by unfold sizeOf' at hn ⊢; omega)

/-- The chunk-feeding loop of `transform`: each chunk is appended to the
pending bytes and the step loop is drained. -/
def processChunks (c : C) (p : List ℕ) : List (List ℕ) → Except E (C × List ℕ)
  | [] => .ok (c, p)
  | ch :: cs =>
    match M.runLoop c (p ++ ch) with
    | .error e => .error e
    | .ok (c', p') => processChunks c' p' cs

/-- One unfolding of the chunk loop. -/
lemma processChunks_cons (c : C) (p ch : List ℕ) (cs : List (List ℕ)) :
    M.processChunks c p (ch :: cs) =
      match M.runLoop c (p ++ ch) with
      | .error e => .error e
      | .ok (c', p') => M.processChunks c' p' cs := by
  rw [show M.processChunks c p (ch :: cs) =
      (match M.runLoop c (p ++ ch) with
       | .error e => .error e
       | .ok (c', p') => M.processChunks c' p' cs) from rfl]

/-- Feeding any chunk sequence equals draining its concatenation in one go. -/
lemma processChunks_join : ∀ (cs : List (List ℕ)) (c : C) (p : List ℕ), M.inv c →
    p.length < M.needed c → M.processChunks c p cs = M.runLoop c (p ++ cs.flatten) := by
  intro cs
  induction cs with
  | nil =>
    intro c p hinv hq
    show Except.ok (c, p) = M.runLoop c (p ++ [])
    rw [List.append_nil, M.runLoop_quiescent hq]
  | cons ch cs ih =>
    intro c p hinv hq
    rw [show M.processChunks c p (ch :: cs) =
        (match M.runLoop c (p ++ ch) with
         | .error e => .error e
         | .ok (c', p') => M.processChunks c' p' cs) from rfl]
    have hjoin : p ++ (ch :: cs).flatten = (p ++ ch) ++ cs.flatten := by
      rw [List.flatten_cons, List.append_assoc]
    rw [hjoin, ← M.runLoop_append (M.sizeOf' c (p ++ ch)) c (p ++ ch) cs.flatten hinv (le_refl _)]
    cases hr : M.runLoop c (p ++ ch) with
    | error e => rfl
    | ok cp =>
      obtain ⟨c', p'⟩ := cp
      obtain ⟨hinv', hq'⟩ := M.runLoop_post (M.sizeOf' c (p ++ ch)) c (p ++ ch) c' p' hinv hr
      exact ih c' p' hinv' hq'

/-- Chunk-boundary insensitivity: any partition of the input into chunks
produces exactly the machine result of the whole buffer as one chunk. -/
lemma processChunks_chunking (cs : List (List ℕ)) (c : C) (p : List ℕ)
    (hinv : M.inv c) (hq : p.length < M.needed c) :
    M.processChunks c p cs = M.processChunks c p [cs.flatten] := by
  rw [M.processChunks_join cs c p hinv hq]
  show _ = (match M.runLoop c (p ++ cs.flatten) with
    | .error e => .error e
    | .ok (c', p') => M.processChunks c' p' [])
  cases hr : M.runLoop c (p ++ cs.flatten) with
  | error e => rfl
  | ok cp => obtain ⟨c', p'⟩ := cp; rfl

/-- Every error the machine can produce is either a step error or the
(unreachable) fuel marker. -/
lemma processChunks_error_prop (P : E → Prop)
    (hstep : ∀ c p e, M.step c p = .error e → P e) (hfuel : P M.fuelErr) :
    ∀ (cs : List (List ℕ)) (c : C) (p : List ℕ) (e : E),
      M.processChunks c p cs = .error e → P e := by
  have hloop : ∀ (f : ℕ) (c : C) (p : List ℕ) (e : E), M.loopF f c p = .error e → P e := by
    intro f
    induction f with
    | zero =>
      intro c p e h
      cases h
      exact hfuel
    | succ f ih =>
      intro c p e h
      rw [M.loopF_succ] at h
      by_cases hguard : p.length < M.needed c
      · rw [if_pos hguard] at h; cases h
      · rw [if_neg hguard] at h
        cases hstep' : M.step c p with
        | error e' =>
          rw [hstep'] at h
          cases h
          exact hstep c p e hstep'
        | ok cp =>
          rw [hstep'] at h
          obtain ⟨c1, p1⟩ := cp
          exact ih c1 p1 e h
  intro cs
  induction cs with
  | nil => intro c p e h; cases h
  | cons ch cs ih =>
    intro c p e h
    rw [show M.processChunks c p (ch :: cs) =
        (match M.runLoop c (p ++ ch) with
         | .error e => .error e
         | .ok (c', p') => M.processChunks c' p' cs) from rfl] at h
    cases hr : M.runLoop c (p ++ ch) with
    | error e' =>
      rw [hr] at h
      cases h
      exact hloop _ _ _ _ hr
    | ok cp =>
      rw [hr] at h
      obtain ⟨c', p'⟩ := cp
      exact ih c' p' e h

end StepMachine

/-- Errors of the SHP transform: `format` for every `TypeError`/`Error`
thrown inside `transform` (including record-payload errors), `trunc` for
the flush-time truncation error (which carries the remaining byte count). -/
inductive SHPErr where
  | format (msg : String)
  | trunc (remaining : ℤ)
deriving DecidableEq

/-- Big-endian signed 32-bit integer from a 4-byte slice
(`DataView.getInt32`). -/
def i32be (w : List ℕ) : ℤ :=
  let u : ℕ := w.getD 0 0 * 16777216 + w.getD 1 0 * 65536 + w.getD 2 0 * 256 + w.getD 3 0
  if u < 2147483648 then (u : ℤ) else (u : ℤ) - 4294967296

/-- `DataView.getInt32(i)` on the pending bytes. -/
def readI32 (p : List ℕ) (i : ℕ) : Option ℤ := (readBytes p i 4).map i32be

lemma readI32_append (p d : List ℕ) {i : ℕ} (h : i + 4 ≤ p.length) :
    readI32 (p ++ d) i = readI32 p i := by
  unfold readI32
  rw [readBytes_append p d h]

lemma readI32_some_length {p : List ℕ} {i : ℕ} {v : ℤ} (h : readI32 p i = some v) :
    i + 4 ≤ p.length := by
  unfold readI32 at h
  cases hb : readBytes p i 4 with
  | none => rw [hb] at h; cases h
  | some w => exact (readBytes_some hb).1

/-- Control state of the `SHPTransform` state machine (parser.js): the
`needed`/`status`/`filesize` variables of the closure, the caller-visible
`bbox` slot, and the records enqueued so far.  The byte decoding of a
record body is abstracted by the `parseRec` parameter below ( `shpRecord`
reads IEEE doubles, outside this rational model; every claim here is about
the framing machine, which only slices the body bytes), and the projected
header bbox similarly by `hdrBBox`. -/
structure SHPCtl (α β : Type) where
  needed : ℕ
  status : ℕ
  filesize : ℤ
  bbox : Option β
  out : List α
deriving DecidableEq

/-- One iteration of the `while (true)` loop of `SHPTransform.transform`:
status 0 parses the 100-byte file header (magic `9994`, file size in
16-bit words); status 1 parses an 8-byte record header whose second word
is the body length in 16-bit words (negative lengths, impossible in valid
files, are clamped to 0 where the JS code would move its cursor
backwards); status 2 slices the body and enqueues the parsed record.
`filesize` tracks declared-minus-consumed bytes exactly as the JS code
does. -/
def shpStep (hdrBBox : List ℕ → β) (parseRec : List ℕ → Except String α)
    (c : SHPCtl α β) (p : List ℕ) : Except SHPErr (SHPCtl α β × List ℕ) :=
  if c.status = 0 then
    match readI32 p 0 with
    | none => .error (.format "RangeError")
    | some magic =>
      if magic ≠ 9994 then .error (.format "Not a Shapefile format")
      else
        match readI32 p 24 with
        | none => .error (.format "RangeError")
        | some fsz =>
          match readBytes p 0 100 with
          | none => .error (.format "RangeError")
          | some hw =>
            .ok ({ needed := 8, status := 1, filesize := fsz * 2 - 100,
                   bbox := some (hdrBBox hw), out := c.out }, p.drop 100)
  else if c.status = 1 then
    match readI32 p 4 with
    | none => .error (.format "RangeError")
    | some len =>
      .ok ({ c with needed := (len * 2).toNat, status := 2, filesize := c.filesize - 8 },
        p.drop 8)
  else if c.status = 2 then
    match readBytes p 0 c.needed with
    | none => .error (.format "RangeError")
    | some w =>
      match parseRec w with
      | .error e => .error (.format e)
      | .ok r =>
        .ok (({ c with needed := 8, status := 1, filesize := c.filesize - (c.needed : ℤ), out := c.out ++ [r] } : SHPCtl α β), p.drop c.needed)
  else .error (.format "SHPTransform: bug")

/-- Structural invariant of `SHPTransform`: the byte requirement matches
the state (100 for the file header, 8 for a record header). -/
def shpInv (c : SHPCtl α β) : Prop :=
  (c.status = 0 → c.needed = 100) ∧ (c.status = 1 → c.needed = 8)

/-- Loop-progress weight for the SHP machine. -/
def shpWeight (c : SHPCtl α β) : ℕ :=
  if c.status = 0 then 2 else if c.status = 2 then 1 else 0

lemma shpStep_dec (hdrBBox : List ℕ → β) (parseRec : List ℕ → Except String α) :
    ∀ (c : SHPCtl α β) p c' p', shpInv c → c.needed ≤ p.length →
      shpStep hdrBBox parseRec c p = .ok (c', p') →
      2 * p'.length + shpWeight c' < 2 * p.length + shpWeight c := by
  intro c p c' p' hinv hlen hstep
  unfold shpStep at hstep
  split at hstep
  · rename_i h0
    have h100 : (100 : ℕ) ≤ p.length := by rw [← hinv.1 h0]; exact hlen
    split at hstep
    · cases hstep
    · split at hstep
      · cases hstep
      · split at hstep
        · cases hstep
        · split at hstep
          · cases hstep
          · cases hstep
            simp only [shpWeight, h0, List.length_drop]
            norm_num
            omega
  · split at hstep
    · rename_i h0 h1
      split at hstep
      · cases hstep
      · rename_i len hm
        cases hstep
        have h8 : 4 + 4 ≤ p.length := readI32_some_length hm
        simp only [shpWeight, h0, h1, List.length_drop]
        norm_num
        omega
    · split at hstep
      · rename_i h0 h1 h2
        split at hstep
        · cases hstep
        · split at hstep
          · cases hstep
          · cases hstep
            simp only [shpWeight, h0, h1, h2, List.length_drop]
            norm_num
            omega
      · cases hstep

lemma shpStep_inv (hdrBBox : List ℕ → β) (parseRec : List ℕ → Except String α) :
    ∀ (c : SHPCtl α β) p c' p', shpInv c → c.needed ≤ p.length →
      shpStep hdrBBox parseRec c p = .ok (c', p') → shpInv c' := by
  intro c p c' p' hinv hlen hstep
  unfold shpStep at hstep
  split at hstep
  · split at hstep
    · cases hstep
    · split at hstep
      · cases hstep
      · split at hstep
        · cases hstep
        · split at hstep
          · cases hstep
          · cases hstep
            unfold shpInv
            exact ⟨(fun h => nomatch h), (fun _ => rfl)⟩
  · split at hstep
    · split at hstep
      · cases hstep
      · cases hstep
        unfold shpInv
        exact ⟨(fun h => nomatch h), (fun h => nomatch h)⟩
    · split at hstep
      · split at hstep
        · cases hstep
        · split at hstep
          · cases hstep
          · cases hstep
            unfold shpInv
            exact ⟨(fun h => nomatch h), (fun _ => rfl)⟩
      · cases hstep

lemma shpStep_append (hdrBBox : List ℕ → β) (parseRec : List ℕ → Except String α) :
    ∀ (c : SHPCtl α β) p d, shpInv c → c.needed ≤ p.length →
      shpStep hdrBBox parseRec c (p ++ d) =
        (shpStep hdrBBox parseRec c p).map fun cp => (cp.1, cp.2 ++ d) := by
  intro c p d hinv hlen
  unfold shpStep
  by_cases h0 : c.status = 0
  · have h100 : (100 : ℕ) ≤ p.length := by rw [← hinv.1 h0]; exact hlen
    rw [if_pos h0, if_pos h0, readI32_append p d (by omega)]
    cases hm : readI32 p 0 with
    | none => rfl
    | some magic =>
      dsimp only
      by_cases hmagic : magic ≠ 9994
      · rw [if_pos hmagic, if_pos hmagic]
        rfl
      · rw [if_neg hmagic, if_neg hmagic, readI32_append p d (by omega)]
        cases hf : readI32 p 24 with
        | none => rfl
        | some fsz =>
          dsimp only
          rw [readBytes_append p d (by omega)]
          cases hw : readBytes p 0 100 with
          | none => rfl
          | some w =>
            dsimp only
            rw [drop_append_left p d (by omega)]
            rfl
  · rw [if_neg h0, if_neg h0]
    by_cases h1 : c.status = 1
    · have h8 : (8 : ℕ) ≤ p.length := by rw [← hinv.2 h1]; exact hlen
      rw [if_pos h1, if_pos h1, readI32_append p d (by omega)]
      cases hm : readI32 p 4 with
      | none => rfl
      | some len =>
        dsimp only
        rw [drop_append_left p d (by omega)]
        rfl
    · rw [if_neg h1, if_neg h1]
      by_cases h2 : c.status = 2
      · rw [if_pos h2, if_pos h2, readBytes_append p d (by omega)]
        cases hw : readBytes p 0 c.needed with
        | none => rfl
        | some w =>
          dsimp only
          cases hr : parseRec w with
          | error e => rfl
          | ok r =>
            dsimp only
            rw [drop_append_left p d (by omega)]
            rfl
      · rw [if_neg h2, if_neg h2]
        rfl

/-- The `SHPTransform` machine. -/
def shpMachine (hdrBBox : List ℕ → β) (parseRec : List ℕ → Except String α) :
    StepMachine (SHPCtl α β) SHPErr where
  needed := SHPCtl.needed
  weight := shpWeight
  inv := shpInv
  step := shpStep hdrBBox parseRec
  fuelErr := .format "SHPTransform: bug"
  step_dec := shpStep_dec hdrBBox parseRec
  step_inv := shpStep_inv hdrBBox parseRec
  step_append := shpStep_append hdrBBox parseRec

/-- The initial state of `SHPTransform`: expecting the 100-byte header. -/
def shpInit : SHPCtl α β :=
  { needed := 100, status := 0, filesize := 0, bbox := none, out := [] }

/-- Run `SHPTransform` over a sequence of chunks. -/
def runSHP (hdrBBox : List ℕ → β) (parseRec : List ℕ → Except String α)
    (cs : List (List ℕ)) : Except SHPErr (SHPCtl α β × List ℕ) :=
  (shpMachine hdrBBox parseRec).processChunks shpInit [] cs

/-- The `flush()` callback of `SHPTransform`: a nonzero remaining byte
count is the fatal truncation error. -/
def flushSHP (c : SHPCtl α β) : Except SHPErr Unit :=
  if c.filesize ≠ 0 then .error (.trunc c.filesize) else .ok ()

/-- `DataView.getUint8(i)` on the pending bytes. -/
def readU8 (p : List ℕ) (i : ℕ) : Option ℕ := (readBytes p i 1).map fun w => w.getD 0 0

/-- `DataView.getUint32(i, true)` (little-endian) on the pending bytes. -/
def readU32LE (p : List ℕ) (i : ℕ) : Option ℕ :=
  (readBytes p i 4).map fun w =>
    w.getD 0 0 + w.getD 1 0 * 256 + w.getD 2 0 * 65536 + w.getD 3 0 * 16777216

/-- `DataView.getUint16(i, true)` (little-endian) on the pending bytes. -/
def readU16LE (p : List ℕ) (i : ℕ) : Option ℕ :=
  (readBytes p i 2).map fun w => w.getD 0 0 + w.getD 1 0 * 256

lemma readU8_append (p d : List ℕ) {i : ℕ} (h : i + 1 ≤ p.length) :
    readU8 (p ++ d) i = readU8 p i := by
  unfold readU8
  rw [readBytes_append p d h]

lemma readU32LE_append (p d : List ℕ) {i : ℕ} (h : i + 4 ≤ p.length) :
    readU32LE (p ++ d) i = readU32LE p i := by
  unfold readU32LE
  rw [readBytes_append p d h]

lemma readU16LE_append (p d : List ℕ) {i : ℕ} (h : i + 2 ≤ p.length) :
    readU16LE (p ++ d) i = readU16LE p i := by
  unfold readU16LE
  rw [readBytes_append p d h]

lemma readU8_some_length {p : List ℕ} {i v : ℕ} (h : readU8 p i = some v) :
    i + 1 ≤ p.length := by
  unfold readU8 at h
  cases hb : readBytes p i 1 with
  | none => rw [hb] at h; cases h
  | some w => exact (readBytes_some hb).1

/-- Embeds `dbfHeader` (common.js): the 3-bit version field of byte 0 must
be 3 (`getUint8(0) & 0x07`), byte 15 (encryption flag) must be 0; returns
the declared record count (`getUint32(4, true)`) and the fixed record
length (`getUint16(10, true)`). -/
def dbfHeaderE (p : List ℕ) : Except String (ℕ × ℕ) :=
  match readU8 p 0 with
  | none => .error "RangeError"
  | some b0 =>
    if b0 &&& 7 ≠ 3 then .error ("DBF format " ++ toString (b0 &&& 7) ++ " not implemented.")
    else
      match readU32LE p 4 with
      | none => .error "RangeError"
      | some numrec =>
        match readU16LE p 10 with
        | none => .error "RangeError"
        | some reclen =>
          match readU8 p 15 with
          | none => .error "RangeError"
          | some enc =>
            if enc ≠ 0 then .error "Encryped DBF not implemented."
            else .ok (numrec, reclen)

/-- The name decoding of `dbfField` (common.js): decode 11 bytes, trim,
then drop everything from the first NUL character on
(`.replace(/\0.*$/, '')`). -/
def dbfFieldName (bs : List ℕ) : String :=
  ⟨(jsTrimL (decodeStr bs).data).takeWhile fun c => c.toNat ≠ 0⟩

/-- Embeds `dbfField` (common.js): `none` for the `0x0D` terminator of the
field-descriptor array, otherwise the name (11 bytes), type tag (byte 11)
and byte width (byte 16). -/
def dbfFieldE (p : List ℕ) : Except String (Option DField) :=
  match readU8 p 0 with
  | none => .error "RangeError"
  | some b =>
    if b = 13 then .ok none
    else
      match readBytes p 0 11 with
      | none => .error "RangeError"
      | some nameBytes =>
        match readU8 p 11 with
        | none => .error "RangeError"
        | some tb =>
          match readU8 p 16 with
          | none => .error "RangeError"
          | some sz => .ok (some ⟨dbfFieldName nameBytes, Char.ofNat tb, sz⟩)

/-- Control state of the `DBFTransform` state machine (parser.js). -/
structure DBFCtl where
  needed : ℕ
  status : ℕ
  numrec : ℤ
  reclen : ℕ
  fields : List DField
  out : List (List (String × JSValue))
deriving DecidableEq

/-- One iteration of the `while (true)` loop of `DBFTransform.transform`:
status 0 parses the 32-byte table header; status 1 parses one 32-byte
field descriptor, or, on the `0x0D` sentinel, consumes a single byte and
switches to rows; status 2 consumes one `reclen`-byte row — flag `0x2A`
(42) rows are skipped with the record counter decremented and nothing
emitted, flag `0x20` (32) rows are decoded and enqueued, and any other
flag is the fatal format error.  The row window and its flag byte are
bounds-checked like the JS `DataView` accesses. -/
def dbfStep (c : DBFCtl) (p : List ℕ) : Except String (DBFCtl × List ℕ) :=
  if c.status = 0 then
    match dbfHeaderE p with
    | .error e => .error e
    | .ok nr =>
      .ok ({ c with needed := 32, status := 1, numrec := (nr.1 : ℤ), reclen := nr.2 },
        p.drop 32)
  else if c.status = 1 then
    match dbfFieldE p with
    | .error e => .error e
    | .ok none => .ok ({ c with status := 2, needed := c.reclen }, p.drop 1)
    | .ok (some f) => .ok ({ c with fields := c.fields ++ [f] }, p.drop 32)
  else if c.status = 2 then
    match readBytes p 0 c.reclen with
    | none => .error "RangeError"
    | some w =>
      match w.head? with
      | none => .error "RangeError"
      | some flag =>
        if flag = 42 then .ok ({ c with numrec := c.numrec - 1 }, p.drop c.needed)
        else if flag ≠ 32 then .error "DBFTransform: format error."
        else
          match dbfRecordRun c.fields w with
          | .error e => .error e
          | .ok row =>
            .ok ({ c with numrec := c.numrec - 1, out := c.out ++ [row] }, p.drop c.needed)
  else .error "DBFTransform: bug"

/-- Structural invariant of `DBFTransform`: the byte requirement matches
the state (32 for header and field descriptors, `reclen` for rows). -/
def dbfInv (c : DBFCtl) : Prop :=
  (c.status = 0 → c.needed = 32) ∧ (c.status = 1 → c.needed = 32) ∧
    (c.status = 2 → c.needed = c.reclen)

/-- Loop-progress weight for the DBF machine. -/
def dbfWeight (c : DBFCtl) : ℕ := if c.status = 0 then 1 else 0

lemma dbfStep_dec : ∀ (c : DBFCtl) p c' p', dbfInv c → c.needed ≤ p.length →
    dbfStep c p = .ok (c', p') →
    2 * p'.length + dbfWeight c' < 2 * p.length + dbfWeight c := by
  intro c p c' p' hinv hlen hstep
  unfold dbfStep at hstep
  split at hstep
  · rename_i h0
    have h32 : (32 : ℕ) ≤ p.length := by rw [← hinv.1 h0]; exact hlen
    split at hstep
    · cases hstep
    · cases hstep
      simp only [dbfWeight, h0, List.length_drop]
      norm_num
      omega
  · split at hstep
    · rename_i h0 h1
      have h32 : (32 : ℕ) ≤ p.length := by rw [← hinv.2.1 h1]; exact hlen
      split at hstep
      · cases hstep
      · cases hstep
        simp only [dbfWeight, h0, List.length_drop]
        norm_num
        omega
      · cases hstep
        simp only [dbfWeight, h0, List.length_drop]
        norm_num
        omega
    · split at hstep
      · rename_i h0 h1 h2
        split at hstep
        · cases hstep
        · rename_i w hw
          split at hstep
          · cases hstep
          · rename_i flag hflag
            obtain ⟨hwlen, hweq, hwlen'⟩ := readBytes_some hw
            have hwne : w ≠ [] := by
              intro he
              rw [he] at hflag
              cases hflag
            have hr1 : 1 ≤ c.reclen := by
              rw [← hwlen']
              exact List.length_pos.mpr hwne
            have hnd : c.needed = c.reclen := hinv.2.2 h2
            split at hstep
            · cases hstep
              simp only [dbfWeight, h0, List.length_drop]
              omega
            · split at hstep
              · cases hstep
              · split at hstep
                · cases hstep
                · cases hstep
                  simp only [dbfWeight, h0, List.length_drop]
                  omega
      · cases hstep

lemma dbfStep_inv : ∀ (c : DBFCtl) p c' p', dbfInv c → c.needed ≤ p.length →
    dbfStep c p = .ok (c', p') → dbfInv c' := by
  intro c p c' p' hinv hlen hstep
  unfold dbfStep at hstep
  split at hstep
  · split at hstep
    · cases hstep
    · cases hstep
      exact ⟨(fun h => nomatch h), (fun _ => rfl), (fun h => nomatch h)⟩
  · split at hstep
    · rename_i h0 h1
      split at hstep
      · cases hstep
      · cases hstep
        exact ⟨(fun h => nomatch h), (fun h => nomatch h), (fun _ => rfl)⟩
      · cases hstep
        exact ⟨(fun h => (hinv.1 h)), (fun h => (hinv.2.1 h)), (fun h => (hinv.2.2 h))⟩
    · split at hstep
      · rename_i h0 h1 h2
        split at hstep
        · cases hstep
        · split at hstep
          · cases hstep
          · split at hstep
            · cases hstep
              exact ⟨(fun h => (hinv.1 h)), (fun h => (hinv.2.1 h)), (fun h => (hinv.2.2 h))⟩
            · split at hstep
              · cases hstep
              · split at hstep
                · cases hstep
                · cases hstep
                  exact ⟨(fun h => (hinv.1 h)), (fun h => (hinv.2.1 h)), (fun h => (hinv.2.2 h))⟩
      · cases hstep

lemma dbfHeaderE_append (p d : List ℕ) (h : 16 ≤ p.length) :
    dbfHeaderE (p ++ d) = dbfHeaderE p := by
  unfold dbfHeaderE
  rw [readU8_append p d (by omega)]
  cases hb : readU8 p 0 with
  | none => rfl
  | some b0 =>
    dsimp only
    by_cases hv : b0 &&& 7 ≠ 3
    · rw [if_pos hv, if_pos hv]
    · rw [if_neg hv, if_neg hv, readU32LE_append p d (by omega)]
      cases hn : readU32LE p 4 with
      | none => rfl
      | some numrec =>
        dsimp only
        rw [readU16LE_append p d (by omega)]
        cases hr : readU16LE p 10 with
        | none => rfl
        | some reclen =>
          dsimp only
          rw [readU8_append p d (by omega)]

lemma dbfFieldE_append (p d : List ℕ) (h : 17 ≤ p.length) :
    dbfFieldE (p ++ d) = dbfFieldE p := by
  unfold dbfFieldE
  rw [readU8_append p d (by omega)]
  cases hb : readU8 p 0 with
  | none => rfl
  | some b =>
    dsimp only
    by_cases hs : b = 13
    · rw [if_pos hs, if_pos hs]
    · rw [if_neg hs, if_neg hs, readBytes_append p d (by omega)]
      cases hn : readBytes p 0 11 with
      | none => rfl
      | some nameBytes =>
        dsimp only
        rw [readU8_append p d (by omega)]
        cases ht : readU8 p 11 with
        | none => rfl
        | some tb =>
          dsimp only
          rw [readU8_append p d (by omega)]

lemma dbfStep_append : ∀ (c : DBFCtl) p d, dbfInv c → c.needed ≤ p.length →
    dbfStep c (p ++ d) = (dbfStep c p).map fun cp => (cp.1, cp.2 ++ d) := by
  intro c p d hinv hlen
  unfold dbfStep
  by_cases h0 : c.status = 0
  · have h32 : (32 : ℕ) ≤ p.length := by rw [← hinv.1 h0]; exact hlen
    rw [if_pos h0, if_pos h0, dbfHeaderE_append p d (by omega)]
    cases hh : dbfHeaderE p with
    | error e => rfl
    | ok nr =>
      dsimp only
      rw [drop_append_left p d (by omega)]
      rfl
  · rw [if_neg h0, if_neg h0]
    by_cases h1 : c.status = 1
    · have h32 : (32 : ℕ) ≤ p.length := by rw [← hinv.2.1 h1]; exact hlen
      rw [if_pos h1, if_pos h1, dbfFieldE_append p d (by omega)]
      cases hf : dbfFieldE p with
      | error e => rfl
      | ok fo =>
        cases fo with
        | none =>
          dsimp only
          rw [drop_append_left p d (by omega)]
          rfl
        | some f =>
          dsimp only
          rw [drop_append_left p d (by omega)]
          rfl
    · rw [if_neg h1, if_neg h1]
      by_cases h2 : c.status = 2
      · have hrl : c.reclen ≤ p.length := by rw [← hinv.2.2 h2]; exact hlen
        have hnd : c.needed = c.reclen := hinv.2.2 h2
        rw [if_pos h2, if_pos h2, readBytes_append p d (by omega)]
        cases hw : readBytes p 0 c.reclen with
        | none => rfl
        | some w =>
          dsimp only
          cases hfl : w.head? with
          | none => rfl
          | some flag =>
            dsimp only
            by_cases h42 : flag = 42
            · rw [if_pos h42, if_pos h42]
              rw [drop_append_left p d (by omega)]
              rfl
            · rw [if_neg h42, if_neg h42]
              by_cases h20 : flag ≠ 32
              · rw [if_pos h20, if_pos h20]
                rfl
              · rw [if_neg h20, if_neg h20]
                cases hr : dbfRecordRun c.fields w with
                | error e => rfl
                | ok row =>
                  dsimp only
                  rw [drop_append_left p d (by omega)]
                  rfl
      · rw [if_neg h2, if_neg h2]
        rfl

/-- The `DBFTransform` machine.  The text decoder parameter of the JS code
is fixed to the latin1 model `decodeStr` used by `dbfRecordRun`. -/
def dbfMachine : StepMachine DBFCtl String where
  needed := DBFCtl.needed
  weight := dbfWeight
  inv := dbfInv
  step := dbfStep
  fuelErr := "DBFTransform: bug"
  step_dec := dbfStep_dec
  step_inv := dbfStep_inv
  step_append := dbfStep_append

/-- The initial state of `DBFTransform`: expecting the 32-byte header. -/
def dbfInit : DBFCtl :=
  { needed := 32, status := 0, numrec := 0, reclen := 0, fields := [], out := [] }

/-- Run `DBFTransform` over a sequence of chunks. -/
def runDBF (cs : List (List ℕ)) : Except String (DBFCtl × List ℕ) :=
  dbfMachine.processChunks dbfInit [] cs

/-- The `flush()` callback of `DBFTransform`: a nonzero remaining record
count is the fatal truncation error. -/
def flushDBF (c : DBFCtl) : Except String Unit :=
  if c.numrec ≠ 0 then
    .error ("DBFTransform: records remained: " ++ toString c.numrec ++ ".")
  else .ok ()

lemma shpInv_init {α β : Type} : shpInv (shpInit : SHPCtl α β) :=
  ⟨(fun _ => rfl), (fun h => nomatch h)⟩

lemma dbfInv_init : dbfInv dbfInit :=
  ⟨(fun _ => rfl), (fun h => nomatch h), (fun h => nomatch h)⟩

/-- C2: feeding the SHP decoder any partition of a byte sequence into
chunks (one whole-buffer chunk, one byte per chunk, or any other split)
produces exactly the state — emitted record sequence, captured header
bbox, and remaining-byte accounting — of feeding the concatenated bytes as
a single chunk; likewise for the DBF decoder.  (Record-body and header
bbox decoding are universally quantified, so this holds for the actual
`shpRecord`/`parseBBox`; on valid streams they read only their own byte
window, which is what the window abstraction expresses.) -/
theorem chunking_invariance {α β : Type} (hdrBBox : List ℕ → β)
    (parseRec : List ℕ → Except String α) (cs : List (List ℕ)) :
    runSHP hdrBBox parseRec cs = runSHP hdrBBox parseRec [cs.flatten] ∧
    runDBF cs = runDBF [cs.flatten] :=
  ⟨(shpMachine hdrBBox parseRec).processChunks_chunking cs shpInit [] shpInv_init
      (by norm_num [shpMachine, shpInit]),
   dbfMachine.processChunks_chunking cs dbfInit [] dbfInv_init
      (by norm_num [dbfMachine, dbfInit])⟩

lemma shpStep_error_format {α β : Type} (hdrBBox : List ℕ → β)
    (parseRec : List ℕ → Except String α) :
    ∀ (c : SHPCtl α β) p e, shpStep hdrBBox parseRec c p = .error e →
      ∃ m, e = .format m := by
  intro c p e hstep
  unfold shpStep at hstep
  split at hstep
  · split at hstep
    · cases hstep; exact ⟨_, rfl⟩
    · split at hstep
      · cases hstep; exact ⟨_, rfl⟩
      · split at hstep
        · cases hstep; exact ⟨_, rfl⟩
        · split at hstep
          · cases hstep; exact ⟨_, rfl⟩
          · cases hstep
  · split at hstep
    · split at hstep
      · cases hstep; exact ⟨_, rfl⟩
      · cases hstep
    · split at hstep
      · split at hstep
        · cases hstep; exact ⟨_, rfl⟩
        · split at hstep
          · cases hstep; exact ⟨_, rfl⟩
          · cases hstep
      · cases hstep; exact ⟨_, rfl⟩

/-- C5: the SHP decoder never raises the truncation error mid-stream — any
transform-time failure is a format error — and at flush it raises the
truncation error exactly when the declared file length minus the bytes
consumed is nonzero; a zero remainder flushes cleanly. -/
theorem truncation_only_at_flush {α β : Type} (hdrBBox : List ℕ → β)
    (parseRec : List ℕ → Except String α) (cs : List (List ℕ)) :
    (∀ n, runSHP hdrBBox parseRec cs ≠ .error (.trunc n)) ∧
    (∀ (c : SHPCtl α β) p, runSHP hdrBBox parseRec cs = .ok (c, p) →
      (flushSHP c = .ok () ↔ c.filesize = 0) ∧
      (c.filesize ≠ 0 → flushSHP c = .error (.trunc c.filesize))) := by
  constructor
  · intro n hcontra
    obtain ⟨m, hm⟩ := (shpMachine hdrBBox parseRec).processChunks_error_prop
      (fun e => ∃ m, e = .format m)
      (shpStep_error_format hdrBBox parseRec) ⟨_, rfl⟩ cs shpInit [] _ hcontra
    cases hm
  · intro c p _
    constructor
    · unfold flushSHP
      by_cases hf : c.filesize = 0
      · simp [hf]
      · simp [hf]
    · intro hf
      unfold flushSHP
      rw [if_pos hf]

/-- A minimal valid SHP stream: the 100-byte file header alone (magic
`9994` big-endian at offset 0, declared total length 50 sixteen-bit words
= 100 bytes at offset 24). -/
def shpHdr100 : List ℕ :=
  [0, 0, 39, 10] ++ List.replicate 20 0 ++ [0, 0, 0, 50] ++ List.replicate 72 0

/-- Witness for C5: the minimal valid stream is consumed exactly
(`filesize = 0`) and flushes cleanly. -/
theorem truncation_only_at_flush_witness :
    runSHP (fun _ => (0 : ℕ)) (fun _ => (.error "" : Except String ℕ)) [shpHdr100] =
      .ok ({ needed := 8, status := 1, filesize := 0, bbox := some 0, out := [] }, []) ∧
    flushSHP ({ needed := 8, status := 1, filesize := 0, bbox := some 0, out := [] } :
      SHPCtl ℕ ℕ) = .ok () := by
  constructor
  · decide
  · exact ((truncation_only_at_flush (fun _ => (0 : ℕ))
      (fun _ => (.error "" : Except String ℕ)) [shpHdr100]).2 _ [] (by decide)).1.mpr rfl

lemma readU8_eq_getD {p : List ℕ} {i : ℕ} (h : i < p.length) :
    readU8 p i = some (p.getD i 0) := by
  unfold readU8 readBytes
  rw [if_pos (by omega)]
  show some (((p.drop i).take 1).getD 0 0) = some (p.getD i 0)
  rw [List.getD_eq_getElem?_getD, List.getD_eq_getElem?_getD, List.getElem?_take,
    if_pos (by omega : (0 : ℕ) < 1), List.getElem?_drop, Nat.add_zero]

lemma readU32LE_some_of_le {p : List ℕ} {i : ℕ} (h : i + 4 ≤ p.length) :
    ∃ v, readU32LE p i = some v := by
  unfold readU32LE readBytes
  rw [if_pos h]
  exact ⟨_, rfl⟩

lemma readU16LE_some_of_le {p : List ℕ} {i : ℕ} (h : i + 2 ≤ p.length) :
    ∃ v, readU16LE p i = some v := by
  unfold readU16LE readBytes
  rw [if_pos h]
  exact ⟨_, rfl⟩

/-- C9: the DBF header is accepted exactly when the 3-bit record-format
version field of byte 0 (`getUint8(0) & 0x07`) equals 3 and the encryption
flag byte 15 is zero; any other version and any nonzero encryption flag
fail the header step, so the whole stream errors out before any field
descriptor or row is decoded (nothing is ever emitted). -/
theorem dbf_header_gate (bytes : List ℕ) (h32 : 32 ≤ bytes.length) :
    ((∃ nr rl, dbfHeaderE bytes = .ok (nr, rl)) ↔
      (bytes.getD 0 0) &&& 7 = 3 ∧ bytes.getD 15 0 = 0) ∧
    ((bytes.getD 0 0) &&& 7 ≠ 3 ∨ bytes.getD 15 0 ≠ 0 →
      ∃ e, runDBF [bytes] = .error e) := by
  have hA : (∃ nr rl, dbfHeaderE bytes = .ok (nr, rl)) ↔
      (bytes.getD 0 0) &&& 7 = 3 ∧ bytes.getD 15 0 = 0 := by
    unfold dbfHeaderE
    rw [readU8_eq_getD (by omega)]
    dsimp only
    by_cases hv : (bytes.getD 0 0) &&& 7 ≠ 3
    · rw [if_pos hv]
      constructor
      · rintro ⟨nr, rl, habs⟩
        cases habs
      · rintro ⟨h3, _⟩
        exact absurd h3 hv
    · rw [if_neg hv]
      obtain ⟨nrv, hn⟩ := readU32LE_some_of_le (p := bytes) (i := 4) (by omega)
      rw [hn]
      dsimp only
      obtain ⟨rlv, hrr⟩ := readU16LE_some_of_le (p := bytes) (i := 10) (by omega)
      rw [hrr]
      dsimp only
      rw [readU8_eq_getD (by omega)]
      dsimp only
      by_cases he : bytes.getD 15 0 ≠ 0
      · rw [if_pos he]
        constructor
        · rintro ⟨nr, rl, habs⟩
          cases habs
        · rintro ⟨_, h15⟩
          exact absurd h15 he
      · rw [if_neg he]
        constructor
        · rintro ⟨nr, rl, _⟩
          exact ⟨by omega, by omega⟩
        · rintro ⟨_, _⟩
          exact ⟨nrv, rlv, rfl⟩
  refine ⟨hA, fun hbad => ?_⟩
  cases hh : dbfHeaderE bytes with
  | ok nr =>
    exfalso
    have := hA.mp ⟨nr.1, nr.2, by rw [hh]⟩
    rcases hbad with hbad | hbad
    · exact hbad this.1
    · exact hbad this.2
  | error e =>
    refine ⟨e, ?_⟩
    unfold runDBF
    rw [dbfMachine.processChunks_cons dbfInit [] bytes []]
    rw [List.nil_append]
    rw [dbfMachine.runLoop_step dbfInv_init (by exact h32)]
    rw [show dbfMachine.step dbfInit bytes = .error e from by
      rw [show dbfMachine.step dbfInit bytes =
          (match dbfHeaderE bytes with
           | .error e => .error e
           | .ok nr =>
             .ok ({ dbfInit with needed := 32, status := 1, numrec := (nr.1 : ℤ), reclen := nr.2 }, bytes.drop 32)) from rfl, hh]]

/-- Witness for C9: a header with version field 4 is rejected without any
output; a version-3 unencrypted header is accepted. -/
theorem dbf_header_gate_witness :
    (∃ e, runDBF [4 :: List.replicate 31 0] = .error e) ∧
    (∃ nr rl, dbfHeaderE (3 :: List.replicate 31 0) = .ok (nr, rl)) :=
  ⟨(dbf_header_gate (4 :: List.replicate 31 0) (by decide)).2 (Or.inl (by decide)),
   (dbf_header_gate (3 :: List.replicate 31 0) (by decide)).1.mpr (by decide)⟩

/-- The head of a nonempty list, `getD`-style. -/
lemma head?_eq_headD {b : List ℕ} (hb : b ≠ []) : b.head? = some (b.headD 0) := by
  cases b with
  | nil => exact absurd rfl hb
  | cons a t => rfl

/-- One row step of the DBF machine in record state: slice the `reclen`
byte row off the front, dispatch on the deletion flag. -/
lemma dbfStep_row (c : DBFCtl) (b rest : List ℕ)
    (hst : c.status = 2) (hnd : c.needed = c.reclen) (hb : b.length = c.reclen)
    (hr1 : 1 ≤ c.reclen) :
    dbfStep c (b ++ rest) =
      if b.headD 0 = 42 then .ok ({ c with numrec := c.numrec - 1 }, rest)
      else if b.headD 0 ≠ 32 then .error "DBFTransform: format error."
      else
        match dbfRecordRun c.fields b with
        | .error e => .error e
        | .ok row =>
          .ok ({ c with numrec := c.numrec - 1, out := c.out ++ [row] }, rest) := by
  have hbne : b ≠ [] := by
    intro he
    rw [he] at hb
    simp at hb
    omega
  unfold dbfStep
  rw [if_neg (by omega), if_neg (by omega), if_pos hst]
  have hrb : readBytes (b ++ rest) 0 c.reclen = some b := by
    unfold readBytes
    rw [if_pos (by rw [List.length_append]; omega)]
    rw [List.drop_zero, take_append_left b rest (by omega)]
    rw [← hb, List.take_length]
  rw [hrb]
  dsimp only
  rw [head?_eq_headD hbne]
  dsimp only
  have hdrop : (b ++ rest).drop c.needed = rest := by
    rw [hnd, ← hb]
    exact List.drop_left b rest
  rw [hdrop]

/-- Record-state invariant for a control state of the row phase. -/
lemma dbfInv_rows {c : DBFCtl} (hst : c.status = 2) (hnd : c.needed = c.reclen) :
    dbfInv c :=
  ⟨fun h => absurd (hst.symm.trans h) (by decide),
   fun h => absurd (hst.symm.trans h) (by decide),
   fun _ => hnd⟩

/-- Draining a sequence of well-flagged rows: deleted rows (`0x2A`) are
skipped (counter decremented, nothing emitted), live rows (`0x20`) are
decoded and appended, each from its own byte block. -/
lemma dbfRows_ok : ∀ (blocks : List (List ℕ)) (c : DBFCtl),
    c.status = 2 → c.needed = c.reclen → 1 ≤ c.reclen →
    (∀ b ∈ blocks, b.length = c.reclen) →
    (∀ b ∈ blocks, b.headD 0 = 32 ∨ b.headD 0 = 42) →
    (∀ b ∈ blocks, b.headD 0 = 32 → ∃ row, dbfRecordRun c.fields b = .ok row) →
    ∃ rows,
      mapME (dbfRecordRun c.fields) (blocks.filter fun b => b.headD 0 == 32) = .ok rows ∧
      dbfMachine.runLoop c blocks.flatten =
        .ok ({ c with numrec := c.numrec - (blocks.length : ℤ), out := c.out ++ rows }, [])
  | [], c, hst, hnd, hr1, hlen, hflags, hparse => by
    refine ⟨[], rfl, ?_⟩
    rw [show (List.flatten ([] : List (List ℕ))) = [] from rfl]
    rw [dbfMachine.runLoop_quiescent (show ([] : List ℕ).length < c.needed by simp; omega)]
    cases c
    simp
  | b :: bs, c, hst, hnd, hr1, hlen, hflags, hparse => by
    have hinv := dbfInv_rows hst hnd
    have hble : b.length = c.reclen := hlen b (List.mem_cons_self ..)
    have hstep_eq : dbfMachine.step = dbfStep := rfl
    have hneed_eq : dbfMachine.needed = DBFCtl.needed := rfl
    rw [show (b :: bs).flatten = b ++ bs.flatten from rfl]
    rw [dbfMachine.runLoop_step hinv (by rw [hneed_eq, List.length_append]; omega)]
    rw [hstep_eq, dbfStep_row c b bs.flatten hst hnd hble hr1]
    rcases hflags b (List.mem_cons_self ..) with hfb | hfb
    · rw [if_neg (by omega), if_neg (not_not_intro hfb)]
      obtain ⟨row, hrow⟩ := hparse b (List.mem_cons_self ..) hfb
      rw [hrow]
      dsimp only
      obtain ⟨rows', hmap', hrun'⟩ := dbfRows_ok bs
        { c with numrec := c.numrec - 1, out := c.out ++ [row] }
        hst hnd hr1 (fun b' hb' => hlen b' (List.mem_cons_of_mem _ hb'))
        (fun b' hb' => hflags b' (List.mem_cons_of_mem _ hb'))
        (fun b' hb' hf => hparse b' (List.mem_cons_of_mem _ hb') hf)
      refine ⟨row :: rows', ?_, ?_⟩
      · rw [List.filter_cons_of_pos (by simpa using hfb)]
        unfold mapME
        rw [hrow, hmap']
      · rw [hrun']
        cases c
        simp
        omega
    · rw [if_pos hfb]
      dsimp only
      obtain ⟨rows', hmap', hrun'⟩ := dbfRows_ok bs
        { c with numrec := c.numrec - 1 }
        hst hnd hr1 (fun b' hb' => hlen b' (List.mem_cons_of_mem _ hb'))
        (fun b' hb' => hflags b' (List.mem_cons_of_mem _ hb'))
        (fun b' hb' hf => hparse b' (List.mem_cons_of_mem _ hb') hf)
      refine ⟨rows', ?_, ?_⟩
      · rw [List.filter_cons_of_neg (by simp only [hfb]; decide)]
        exact hmap'
      · rw [hrun']
        cases c
        simp
        omega

/-- A row whose deletion flag is neither `0x20` nor `0x2A` is the fatal
format error, after any number of well-flagged rows. -/
lemma dbfRows_badflag : ∀ (pre : List (List ℕ)) (bad : List ℕ) (rest : List (List ℕ))
      (c : DBFCtl),
    c.status = 2 → c.needed = c.reclen → 1 ≤ c.reclen →
    (∀ b ∈ pre ++ bad :: rest, b.length = c.reclen) →
    (∀ b ∈ pre, b.headD 0 = 32 ∨ b.headD 0 = 42) →
    (∀ b ∈ pre, b.headD 0 = 32 → ∃ row, dbfRecordRun c.fields b = .ok row) →
    ¬(bad.headD 0 = 32 ∨ bad.headD 0 = 42) →
    dbfMachine.runLoop c (pre ++ bad :: rest).flatten = .error "DBFTransform: format error."
  | [], bad, rest, c, hst, hnd, hr1, hlen, _, _, hbad => by
    have hinv := dbfInv_rows hst hnd
    have hbadlen : bad.length = c.reclen := hlen bad (by simp)
    have hstep_eq : dbfMachine.step = dbfStep := rfl
    have hneed_eq : dbfMachine.needed = DBFCtl.needed := rfl
    rw [show (([] : List (List ℕ)) ++ bad :: rest).flatten = bad ++ rest.flatten from by simp]
    rw [dbfMachine.runLoop_step hinv (by rw [hneed_eq, List.length_append]; omega)]
    rw [hstep_eq, dbfStep_row c bad rest.flatten hst hnd hbadlen hr1]
    rw [if_neg (fun h42 => hbad (Or.inr h42)), if_pos (fun h32 => hbad (Or.inl h32))]
  | q :: pre', bad, rest, c, hst, hnd, hr1, hlen, hflags, hparse, hbad => by
    have hinv := dbfInv_rows hst hnd
    have hqlen : q.length = c.reclen := hlen q (by simp)
    have hstep_eq : dbfMachine.step = dbfStep := rfl
    have hneed_eq : dbfMachine.needed = DBFCtl.needed := rfl
    rw [show ((q :: pre') ++ bad :: rest).flatten = q ++ (pre' ++ bad :: rest).flatten
      from by simp]
    rw [dbfMachine.runLoop_step hinv (by rw [hneed_eq, List.length_append]; omega)]
    rw [hstep_eq, dbfStep_row c q ((pre' ++ bad :: rest).flatten) hst hnd hqlen hr1]
    rcases hflags q (List.mem_cons_self ..) with hfq | hfq
    · rw [if_neg (by omega), if_neg (not_not_intro hfq)]
      obtain ⟨row, hrow⟩ := hparse q (List.mem_cons_self ..) hfq
      rw [hrow]
      dsimp only
      exact dbfRows_badflag pre' bad rest
        { c with numrec := c.numrec - 1, out := c.out ++ [row] }
        hst hnd hr1 (fun b hb => hlen b (List.mem_cons_of_mem _ hb))
        (fun b hb => hflags b (List.mem_cons_of_mem _ hb))
        (fun b hb hf => hparse b (List.mem_cons_of_mem _ hb) hf) hbad
    · rw [if_pos hfq]
      dsimp only
      exact dbfRows_badflag pre' bad rest
        { c with numrec := c.numrec - 1 }
        hst hnd hr1 (fun b hb => hlen b (List.mem_cons_of_mem _ hb))
        (fun b hb => hflags b (List.mem_cons_of_mem _ hb))
        (fun b hb hf => hparse b (List.mem_cons_of_mem _ hb) hf) hbad

/-- C7: in the row phase of the DBF decoder, rows flagged `0x2A` (deleted)
are skipped — nothing is emitted for them and the expected-record counter
is decremented — while every surviving `0x20` row is decoded from its own
fixed-width byte block, unaffected by the deleted rows around it; a row
whose flag byte is neither `0x20` nor `0x2A` raises the fatal
`DBFTransform: format error`, after the preceding well-flagged rows have
been processed. -/
theorem deleted_rows_skipped (c : DBFCtl) (blocks : List (List ℕ))
    (hst : c.status = 2) (hnd : c.needed = c.reclen) (hr1 : 1 ≤ c.reclen)
    (hlen : ∀ b ∈ blocks, b.length = c.reclen) :
    ((∀ b ∈ blocks, b.headD 0 = 32 ∨ b.headD 0 = 42) →
      (∀ b ∈ blocks, b.headD 0 = 32 → ∃ row, dbfRecordRun c.fields b = .ok row) →
      ∃ rows,
        mapME (dbfRecordRun c.fields) (blocks.filter fun b => b.headD 0 == 32) = .ok rows ∧
        dbfMachine.runLoop c blocks.flatten =
          .ok ({ c with numrec := c.numrec - (blocks.length : ℤ), out := c.out ++ rows }, [])) ∧
    (∀ pre bad rest, blocks = pre ++ bad :: rest →
      (∀ b ∈ pre, b.headD 0 = 32 ∨ b.headD 0 = 42) →
      (∀ b ∈ pre, b.headD 0 = 32 → ∃ row, dbfRecordRun c.fields b = .ok row) →
      ¬(bad.headD 0 = 32 ∨ bad.headD 0 = 42) →
      dbfMachine.runLoop c blocks.flatten = .error "DBFTransform: format error.") := by
  constructor
  · exact fun hf hp => dbfRows_ok blocks c hst hnd hr1 hlen hf hp
  · intro pre bad rest heq hf hp hbad
    subst heq
    exact dbfRows_badflag pre bad rest c hst hnd hr1 hlen hf hp hbad

/-- Witness for C7: a deleted row `[0x2A, 'A']` followed by a live row
`[0x20, 'B']` (one `C`-typed one-byte field): only the live row is
emitted, the counter drops by 2, and the live row's value is decoded from
its own block. -/
theorem deleted_rows_skipped_witness :
    dbfMachine.runLoop
      ⟨2, 2, 2, 2, [⟨"A", 'C', 1⟩], []⟩ [42, 65, 32, 66] =
      .ok (⟨2, 2, 0, 2, [⟨"A", 'C', 1⟩], [[("A", JSValue.vStr "B")]]⟩, []) := by
  have h := (deleted_rows_skipped ⟨2, 2, 2, 2, [⟨"A", 'C', 1⟩], []⟩ [[42, 65], [32, 66]]
    rfl rfl (by decide) (by decide)).1 (by decide)
    (by
      intro b hb hf
      simp only [List.mem_cons, List.not_mem_nil, or_false] at hb
      rcases hb with rfl | rfl
      · exact absurd hf (by decide)
      · exact ⟨[("A", JSValue.vStr "B")], by decide⟩)
  obtain ⟨rows, hmap, hrun⟩ := h
  have hm2 : mapME (dbfRecordRun [⟨"A", 'C', 1⟩])
      (([[42, 65], [32, 66]] : List (List ℕ)).filter fun b => b.headD 0 == 32) =
      .ok [[("A", JSValue.vStr "B")]] := by decide
  rw [hmap] at hm2
  have hrows : rows = [[("A", JSValue.vStr "B")]] := by
    cases hm2
    rfl
  subst hrows
  rw [show (([[42, 65], [32, 66]] : List (List ℕ))).flatten = [42, 65, 32, 66] from rfl] at hrun
  rw [hrun]
  decide
